import Mathlib

/-!
# Verification of the `prost-reflect` descriptor / dynamic-message specification

This file embeds the descriptor-handle layer of `prost-reflect`
(`src/prost-reflect/src/descriptor/service.rs`) together with the parts of the
descriptor pool and the dynamic-message wire codec that the specification
describes, and proves the specified properties about them.

Names are modelled as lists of characters (`Name`); byte strings as lists of
naturals below 256.  Machine integers are modelled as `Nat`/`Int` with explicit
`% 2 ^ w` where overflow matters.  Fallible operations return `Except` or
`Option`.
-/

namespace ProstReflect

/-- Characters of a dotted full name such as `my.package.Service`. -/
abbrev Name := List Char

/-- Test that a character is not the `.` name separator. -/
def notDot (c : Char) : Bool := c ≠ '.'

/-- Modelled from the spec: `parse_name` (in `descriptor/mod.rs`, not part of
the provided sources) returns the substring after the last `.` separator. -/
def parse_name (s : Name) : Name :=
  (s.reverse.takeWhile notDot).reverse

/-- Modelled from the spec: `parse_namespace` (in `descriptor/mod.rs`, not part
of the provided sources) returns the substring before the last `.` separator,
or the empty string when the name has no separator. -/
def parse_namespace (s : Name) : Name :=
  ((s.reverse.dropWhile notDot).drop 1).reverse

/-- Modelled from the spec: `make_full_name` (in `descriptor/mod.rs`, not part
of the provided sources) concatenates an enclosing namespace with a local
identifier, yielding the fully-qualified dotted name. -/
def make_full_name (ns nm : Name) : Name :=
  if ns = [] then nm else ns ++ '.' :: nm

/-! ## Descriptor handles (`descriptor/service.rs`)

`ServiceDescriptor<I>` / `MethodDescriptor<I>` are generic over a smart-pointer
type `I : Borrow<FileDescriptorInner>`; we model `Borrow` as an explicit
dereference function `deref : I → FileDescriptorInner`, and model the identity
of the shared `FileDescriptorInner` allocation by a `stateId` tag carried by
`FileDescriptor` (two handles over the same `Arc` share the tag; handles over
distinct pools carry distinct tags). -/

/-- Pool-internal stable type identifier (`ty::TypeId`). -/
abbrev TypeId := Nat

/-- `MethodDescriptorInner` (service.rs, lines 31-37). -/
structure MethodDescriptorInner where
  full_name : Name
  request_ty : TypeId
  response_ty : TypeId
  server_streaming : Bool
  client_streaming : Bool
deriving DecidableEq

/-- `ServiceDescriptorInner` (service.rs, lines 19-22). -/
structure ServiceDescriptorInner where
  full_name : Name
  methods : List MethodDescriptorInner
deriving DecidableEq

/-- The per-file shared state; only the parts used by `service.rs` appear. -/
structure FileDescriptorInner where
  services : List ServiceDescriptorInner
deriving DecidableEq

/-- `FileDescriptor<I>`: a shared reference to pooled file state.  `stateId`
identifies the underlying shared allocation. -/
structure FileDescriptor (I : Type) where
  stateId : Nat
  inner : I
deriving DecidableEq

/-- Modelled from the spec: `FileDescriptor` equality (in `descriptor/mod.rs`,
not part of the provided sources) "compares the underlying shared state
identity", i.e. whether both handles address the same allocation. -/
def fileEqB {I : Type} (a b : FileDescriptor I) : Bool :=
  a.stateId == b.stateId

/-- `FileDescriptor::borrow`: re-borrow the shared state as a plain reference;
the underlying allocation (hence `stateId`) is unchanged. -/
def FileDescriptor.borrow {I : Type} (deref : I → FileDescriptorInner)
    (fd : FileDescriptor I) : FileDescriptor FileDescriptorInner :=
  { stateId := fd.stateId, inner := deref fd.inner }

/-- `ServiceDescriptor<I>` (service.rs, lines 13-17). -/
structure ServiceDescriptor (I : Type) where
  file_descriptor : FileDescriptor I
  index : Nat
deriving DecidableEq

/-- `MethodDescriptor<I>` (service.rs, lines 25-29). -/
structure MethodDescriptor (I : Type) where
  service : ServiceDescriptor I
  index : Nat
deriving DecidableEq

/-- Whether the crate is compiled with debug assertions (`debug_assert!`
only checks its condition in `debug` builds). -/
inductive BuildMode
  | debug
  | release
deriving DecidableEq

/-- `ServiceDescriptor::new` (service.rs, lines 48-54): `debug_assert!(index <
file_descriptor.services().len())` then construct.  `none` models a panic. -/
def ServiceDescriptor.new {I : Type} (mode : BuildMode)
    (deref : I → FileDescriptorInner) (fd : FileDescriptor I) (index : Nat) :
    Option (ServiceDescriptor I) :=
  if mode = .debug ∧ ¬ index < (deref fd.inner).services.length then none
  else some { file_descriptor := fd, index }

/-- `ServiceDescriptor::inner` (service.rs, lines 99-101): indexes the pooled
service array; `none` models the panic on an out-of-range index. -/
def ServiceDescriptor.innerData {I : Type} (deref : I → FileDescriptorInner)
    (s : ServiceDescriptor I) : Option ServiceDescriptorInner :=
  (deref s.file_descriptor.inner).services[s.index]?

/-- `ServiceDescriptor::full_name` (service.rs, lines 72-74). -/
def ServiceDescriptor.fullName {I : Type} (deref : I → FileDescriptorInner)
    (s : ServiceDescriptor I) : Option Name :=
  (s.innerData deref).map (·.full_name)

/-- `ServiceDescriptor::name` (service.rs, lines 67-69). -/
def ServiceDescriptor.shortName {I : Type} (deref : I → FileDescriptorInner)
    (s : ServiceDescriptor I) : Option Name :=
  (s.fullName deref).map parse_name

/-- `ServiceDescriptor::package_name` (service.rs, lines 79-81). -/
def ServiceDescriptor.packageName {I : Type} (deref : I → FileDescriptorInner)
    (s : ServiceDescriptor I) : Option Name :=
  (s.fullName deref).map parse_namespace

/-- `ServiceDescriptor::methods` (service.rs, lines 84-90): an index-range
iterator `(0..inner.methods.len()).map(...)` yielding fresh handles whose
parent is a clone of `self`.  The list is the sequence of yielded items. -/
def ServiceDescriptor.methodsList {I : Type} (deref : I → FileDescriptorInner)
    (s : ServiceDescriptor I) : Option (List (MethodDescriptor I)) :=
  (s.innerData deref).map fun inn =>
    (List.range inn.methods.length).map fun index => { service := s, index }

/-- `ServiceDescriptor::borrow` (service.rs, lines 92-97). -/
def ServiceDescriptor.borrow {I : Type} (deref : I → FileDescriptorInner)
    (s : ServiceDescriptor I) : ServiceDescriptor FileDescriptorInner :=
  { file_descriptor := s.file_descriptor.borrow deref, index := s.index }

/-- `impl PartialEq for ServiceDescriptor` (service.rs, lines 142-149):
`self.file_descriptor == other.file_descriptor && self.index == other.index`. -/
def ServiceDescriptor.beqHandle {I : Type} (a b : ServiceDescriptor I) : Bool :=
  fileEqB a.file_descriptor b.file_descriptor && a.index == b.index

/-- `MethodDescriptor::new` (service.rs, lines 162-165): `debug_assert!(index <
service.methods().len())` then construct.  In a debug build the assertion
evaluates `service.methods()`, which itself panics on an invalid parent; in a
release build nothing is evaluated.  `none` models a panic. -/
def MethodDescriptor.new {I : Type} (mode : BuildMode)
    (deref : I → FileDescriptorInner) (svc : ServiceDescriptor I)
    (index : Nat) : Option (MethodDescriptor I) :=
  match mode, svc.innerData deref with
  | .debug, none => none
  | .debug, some inn =>
      if index < inn.methods.length then some { service := svc, index }
      else none
  | .release, _ => some { service := svc, index }

/-- `MethodDescriptor::inner` (service.rs, lines 219-221). -/
def MethodDescriptor.innerData {I : Type} (deref : I → FileDescriptorInner)
    (m : MethodDescriptor I) : Option MethodDescriptorInner :=
  (m.service.innerData deref).bind fun inn => inn.methods[m.index]?

/-- `MethodDescriptor::full_name` (service.rs, lines 188-190). -/
def MethodDescriptor.fullName {I : Type} (deref : I → FileDescriptorInner)
    (m : MethodDescriptor I) : Option Name :=
  (m.innerData deref).map (·.full_name)

/-- `MethodDescriptor::name` (service.rs, lines 183-185). -/
def MethodDescriptor.shortName {I : Type} (deref : I → FileDescriptorInner)
    (m : MethodDescriptor I) : Option Name :=
  (m.fullName deref).map parse_name

/-- `MethodDescriptor::is_client_streaming` (service.rs, lines 203-205). -/
def MethodDescriptor.isClientStreaming {I : Type}
    (deref : I → FileDescriptorInner) (m : MethodDescriptor I) : Option Bool :=
  (m.innerData deref).map (·.client_streaming)

/-- `MethodDescriptor::is_server_streaming` (service.rs, lines 208-210). -/
def MethodDescriptor.isServerStreaming {I : Type}
    (deref : I → FileDescriptorInner) (m : MethodDescriptor I) : Option Bool :=
  (m.innerData deref).map (·.server_streaming)

/-- `MethodDescriptor::borrow` (service.rs, lines 212-217). -/
def MethodDescriptor.borrow {I : Type} (deref : I → FileDescriptorInner)
    (m : MethodDescriptor I) : MethodDescriptor FileDescriptorInner :=
  { service := m.service.borrow deref, index := m.index }

/-- `impl PartialEq for MethodDescriptor` (service.rs, lines 262-269):
`self.service == other.service && self.index == other.index`. -/
def MethodDescriptor.beqHandle {I : Type} (a b : MethodDescriptor I) : Bool :=
  ServiceDescriptor.beqHandle a.service b.service && a.index == b.index

/-! ### Sample data used by the closed witnesses -/

/-- A concrete pooled method, `S.m`. -/
def sampleMethodInner : MethodDescriptorInner :=
  ⟨['S', '.', 'm'], 0, 0, false, false⟩

/-- A concrete pooled service `S` with the single method `S.m`. -/
def sampleServiceInner : ServiceDescriptorInner :=
  ⟨['S'], [sampleMethodInner]⟩

/-- A concrete file with one service. -/
def sampleFileInner : FileDescriptorInner :=
  ⟨[sampleServiceInner]⟩

/-- A concrete file with no services. -/
def emptyFileInner : FileDescriptorInner :=
  ⟨[]⟩

/-- A handle to `sampleFileInner` in pool 0. -/
def sampleFile : FileDescriptor FileDescriptorInner :=
  ⟨0, sampleFileInner⟩

/-- The service handle for `S`. -/
def sampleService : ServiceDescriptor FileDescriptorInner :=
  ⟨sampleFile, 0⟩

/-! ## Type map and name resolution

`resolve_type_name` and the type map live in `descriptor/ty.rs`, outside the
provided sources; they are modelled from the spec.  `MethodDescriptorInner::
from_raw` (service.rs) is embedded on top of them. -/

/-- A descriptor (pool-build) error. -/
inductive DescriptorError
  | typeNotFound (nm : Name)
deriving DecidableEq

/-- The pool's full-name index: fully-qualified names (stored without a
leading separator) to type ids. -/
structure TypeMap where
  entries : List (Name × TypeId)
deriving DecidableEq

/-- Direct lookup of a fully-qualified name. -/
def TypeMap.getByName (tm : TypeMap) (nm : Name) : Option TypeId :=
  tm.entries.findSome? fun e => if e.1 = nm then some e.2 else none

/-- An optional lookup hit as a resolution result: a miss is the descriptor
error identifying the unresolved name. -/
def lookupToResult (nm : Name) (o : Option TypeId) :
    Except DescriptorError TypeId :=
  match o with
  | some t => .ok t
  | none => .error (.typeNotFound nm)

/-- Modelled from the spec: the relative-name search of `resolve_type_name`
(in `descriptor/ty.rs`, not part of the provided sources): look up the
candidate `make_full_name scope name` at the innermost scope, then retry in
each enclosing scope, ending at the package root; the first match wins. -/
def TypeMap.resolveRel (tm : TypeMap) (ns nm : Name) :
    Except DescriptorError TypeId :=
  match tm.getByName (make_full_name ns nm) with
  | some t => .ok t
  | none =>
      if h : ns = [] then .error (.typeNotFound nm)
      else tm.resolveRel (parse_namespace ns) nm
termination_by ns.length
decreasing_by
  have h1 : (ns.reverse.dropWhile notDot).length ≤ ns.reverse.length :=
    (List.dropWhile_suffix notDot).length_le
  have h2 : ns.length ≠ 0 := fun hz => h (List.length_eq_zero.mp hz)
  simp only [parse_namespace, List.length_reverse, List.length_drop] at *
  omega

/-- Modelled from the spec: `resolve_type_name(namespace, name)` (in
`descriptor/ty.rs`, not part of the provided sources) — an absolute name
(leading separator) is looked up directly; a relative name is searched from
the innermost enclosing scope outward; a miss is a descriptor error. -/
def TypeMap.resolve_type_name (tm : TypeMap) (ns nm : Name) :
    Except DescriptorError TypeId :=
  if nm.head? = some '.' then lookupToResult nm (tm.getByName nm.tail)
  else tm.resolveRel ns nm

/-- The chain of scopes searched for a relative name: the namespace itself,
then each enclosing namespace, ending with the root scope `[]`. -/
def scopeChain (ns : Name) : List Name :=
  if h : ns = [] then [[]]
  else ns :: scopeChain (parse_namespace ns)
termination_by ns.length
decreasing_by
  have h1 : (ns.reverse.dropWhile notDot).length ≤ ns.reverse.length :=
    (List.dropWhile_suffix notDot).length_le
  have h2 : ns.length ≠ 0 := fun hz => h (List.length_eq_zero.mp hz)
  simp only [parse_namespace, List.length_reverse, List.length_drop] at *
  omega

/-- First hit of a lookup function over a scope list. -/
def firstSome (f : Name → Option TypeId) : List Name → Option TypeId
  | [] => none
  | sc :: rest =>
      match f sc with
      | some t => some t
      | none => firstSome f rest

/-- The raw `MethodDescriptorProto` fields read by `from_raw`. -/
structure MethodDescriptorProto where
  name : Name
  input_type : Name
  output_type : Name
  client_streaming : Bool
  server_streaming : Bool
deriving DecidableEq

/-- `MethodDescriptorInner::from_raw` (service.rs, lines 225-243): resolve the
method's input and output type names against the service's namespace, then
build the derived metadata (full name, type ids, streaming flags). -/
def MethodDescriptorInner.from_raw (ns : Name)
    (raw_method : MethodDescriptorProto) (type_map : TypeMap) :
    Except DescriptorError MethodDescriptorInner :=
  match type_map.resolve_type_name ns raw_method.input_type with
  | .error e => .error e
  | .ok request_ty =>
      match type_map.resolve_type_name ns raw_method.output_type with
      | .error e => .error e
      | .ok response_ty =>
          .ok ⟨make_full_name ns raw_method.name, request_ty, response_ty,
            raw_method.server_streaming, raw_method.client_streaming⟩

/-- The relative name `Inner` of the spec's resolution example. -/
def nmInner : Name := ['I', 'n', 'n', 'e', 'r']

/-- The scope `a.b.Outer` of the spec's resolution example. -/
def scOuter : Name := ['a', '.', 'b', '.', 'O', 'u', 't', 'e', 'r']

/-- The fully-qualified `a.b.Outer.Inner`. -/
def fqInner : Name := scOuter ++ '.' :: nmInner

/-! ## Wire format (modelled from the spec)

The dynamic value model and the wire codec live in `dynamic.rs`, outside the
provided sources; they are modelled from the spec: varint / length-delimited /
fixed records keyed by field number and wire type, schema-driven decode with
verbatim unknown-field capture, and append/last-wins merge semantics. -/

/-- A wire byte (valid streams use values below 256). -/
abbrev Bytes := List Nat

/-- A wire decode error. -/
inductive DecodeError
  | truncated
  | invalidVarint
  | invalidTag
  | invalidWireType (wt : Nat)
  | wireTypeMismatch
  | missingType
  | recursionLimit
deriving DecidableEq

/-- LEB128 varint encoding: least-significant 7-bit group first, continuation
bit set on every group but the last. -/
def encodeVarint (n : Nat) : Bytes :=
  if h : n < 128 then [n]
  else (n % 128 + 128) :: encodeVarint (n / 128)
termination_by n
decreasing_by exact Nat.div_lt_self (by omega) (by omega)

/-- Varint decoding, limited to 10 bytes (the longest encoding of a 64-bit
value): the value and the remaining bytes, `truncated` when the bytes run out
mid-varint and `invalidVarint` when no terminating group appears within the
limit. -/
def decodeVarint : Nat → Bytes → Except DecodeError (Nat × Bytes)
  | _, [] => .error .truncated
  | 0, _ => .error .invalidVarint
  | fuel + 1, b :: rest =>
      if b % 256 < 128 then .ok (b % 256, rest)
      else
        match decodeVarint fuel rest with
        | .ok (v, rem) => .ok (v * 128 + (b % 256 - 128), rem)
        | .error e => .error e

/-- Little-endian fixed-width encoding (`w` bytes). -/
def encodeFixed : Nat → Nat → Bytes
  | 0, _ => []
  | w + 1, n => n % 256 :: encodeFixed w (n / 256)

/-- Little-endian fixed-width decoding (`w` bytes). -/
def decodeFixed : Nat → Bytes → Except DecodeError (Nat × Bytes)
  | 0, bs => .ok (0, bs)
  | _ + 1, [] => .error .truncated
  | w + 1, b :: rest =>
      match decodeFixed w rest with
      | .ok (v, rem) => .ok (v * 256 + b % 256, rem)
      | .error e => .error e

/-- The payload of one wire record: the four wire types of the format
(0 varint, 1 fixed 64-bit, 2 length-delimited, 5 fixed 32-bit). -/
inductive WireValue
  | varint (n : Nat)
  | i64 (n : Nat)
  | len (payload : Bytes)
  | i32 (n : Nat)
deriving DecidableEq

/-- The wire-type number carried in a record's tag. -/
def wireTypeOf : WireValue → Nat
  | .varint _ => 0
  | .i64 _ => 1
  | .len _ => 2
  | .i32 _ => 5

/-- Byte length of a length-delimited payload (0 for the other wire types);
the decoder only recurses into length-delimited payloads. -/
def payloadLen : WireValue → Nat
  | .len p => p.length
  | _ => 0

/-- Serialize one record: tag varint `field_number << 3 | wire_type` followed
by the payload bytes. -/
def serializeWireValue : WireValue → Bytes
  | .varint n => encodeVarint n
  | .i64 n => encodeFixed 8 n
  | .len p => encodeVarint p.length ++ p
  | .i32 n => encodeFixed 4 n

/-- One full record: tag, then payload. -/
def serializeRecord (fieldNo : Nat) (wv : WireValue) : Bytes :=
  encodeVarint (fieldNo * 8 + wireTypeOf wv) ++ serializeWireValue wv

/-- Parse one record from the front of a byte string: the field number, the
wire value, and the remaining bytes.  Field number 0 is rejected; wire types
3, 4, 6 and 7 are rejected; a length-delimited record whose announced length
exceeds the remaining bytes is truncated. -/
def decodeRecord (bs : Bytes) : Except DecodeError (Nat × WireValue × Bytes) :=
  match decodeVarint 10 bs with
  | .error e => .error e
  | .ok (tag, r1) =>
      if tag / 8 = 0 then .error .invalidTag
      else
        match tag % 8 with
        | 0 =>
            match decodeVarint 10 r1 with
            | .ok (v, rest) => .ok (tag / 8, .varint v, rest)
            | .error e => .error e
        | 1 =>
            match decodeFixed 8 r1 with
            | .ok (v, rest) => .ok (tag / 8, .i64 v, rest)
            | .error e => .error e
        | 2 =>
            match decodeVarint 10 r1 with
            | .error e => .error e
            | .ok (l, r2) =>
                if hl : l ≤ r2.length then
                  .ok (tag / 8, .len (r2.take l), r2.drop l)
                else .error .truncated
        | 5 =>
            match decodeFixed 4 r1 with
            | .ok (v, rest) => .ok (tag / 8, .i32 v, rest)
            | .error e => .error e
        | wt => .error (.invalidWireType wt)

/-! ## Dynamic value model (modelled from the spec) -/

/-- The scalar field kinds of the model (the floating-point kinds are left
out of the model's scope). -/
inductive ScalarKind
  | bool
  | int32
  | int64
  | uint32
  | uint64
  | sint32
  | sint64
  | fixed32
  | fixed64
  | string
  | bytes
  | enum
deriving DecidableEq

/-- A field's kind: a scalar wire kind, or a resolved message type id. -/
inductive Kind
  | scalar (k : ScalarKind)
  | message (ty : TypeId)
deriving DecidableEq

/-- Field cardinality. -/
inductive Cardinality
  | singular
  | optional
  | repeated
deriving DecidableEq

/-- A derived field descriptor of the dynamic layer: number, kind,
cardinality, map flag (set when the declared type is a synthetic map-entry
message) and owning oneof index, if any. -/
structure FieldDescriptor where
  number : Nat
  kind : Kind
  cardinality : Cardinality
  is_map : Bool
  oneof_index : Option Nat
deriving DecidableEq

/-- A derived message descriptor: the ordered field list. -/
structure MessageDescriptor where
  fields : List FieldDescriptor
deriving DecidableEq

/-- The pool of message descriptors, addressed by type id. -/
structure DescriptorPool where
  types : List MessageDescriptor
deriving DecidableEq

/-- Look a field up by number (the descriptor's number index). -/
def findField (desc : MessageDescriptor) (n : Nat) : Option FieldDescriptor :=
  desc.fields.find? fun fd => fd.number == n

/-- A map key: the restricted tagged union over the scalar kinds legal as
protobuf map keys (integers, bool, string) — never floating point or message
types. -/
inductive MapKey
  | kbool (b : Bool)
  | ki32 (i : Int)
  | ki64 (i : Int)
  | ku32 (n : Nat)
  | ku64 (n : Nat)
  | kstr (s : Bytes)
deriving DecidableEq

mutual
/-- A dynamic field value: a tagged union over the scalar kinds, an embedded
dynamic message, an ordered sequence (repeated) and a key→value mapping. -/
inductive Value
  | vbool (b : Bool)
  | vi32 (i : Int)
  | vi64 (i : Int)
  | vu32 (n : Nat)
  | vu64 (n : Nat)
  | vstr (s : Bytes)
  | vbytes (s : Bytes)
  | venum (i : Int)
  | vmsg (m : DynamicMessage)
  | vlist (xs : List Value)
  | vmap (entries : List (MapKey × Value))

/-- A dynamic message instance: present fields by number, plus the side table
of unknown records' raw bytes (tag and payload verbatim). -/
inductive DynamicMessage
  | mk (fields : List (Nat × Value)) (unknown : List Bytes)
end

/-- The present-field table. -/
def DynamicMessage.fields : DynamicMessage → List (Nat × Value)
  | .mk f _ => f

/-- The unknown-field side table. -/
def DynamicMessage.unknown : DynamicMessage → List Bytes
  | .mk _ u => u

/-- A freshly constructed message: all fields absent, no unknown fields. -/
def emptyMessage : DynamicMessage := .mk [] []

/-- Present value of field `n`, if set. -/
def getFieldValue (m : DynamicMessage) (n : Nat) : Option Value :=
  m.fields.findSome? fun e => if e.1 = n then some e.2 else none

/-- Replace the value stored under `n` in place, or append a fresh entry. -/
def replaceOrAppend : List (Nat × Value) → Nat → Value → List (Nat × Value)
  | [], n, v => [(n, v)]
  | (n', v') :: rest, n, v =>
      if n' = n then (n, v) :: rest
      else (n', v') :: replaceOrAppend rest n v

/-- Store `v` under field number `n`. -/
def setFieldRaw (m : DynamicMessage) (n : Nat) (v : Value) : DynamicMessage :=
  .mk (replaceOrAppend m.fields n v) m.unknown

/-- Append one captured unknown record (raw bytes) to the side table. -/
def appendUnknown (m : DynamicMessage) (raw : Bytes) : DynamicMessage :=
  .mk m.fields (m.unknown ++ [raw])

/-- Insert a map entry: overwrite in place when the key exists (last wins),
append otherwise. -/
def insertPair : List (MapKey × Value) → MapKey → Value → List (MapKey × Value)
  | [], k, v => [(k, v)]
  | (k', v') :: rest, k, v =>
      if k' = k then (k, v) :: rest
      else (k', v') :: insertPair rest k v

/-! ### Machine-integer helpers -/

/-- The unsigned 64-bit two's-complement representative of `i`. -/
def toU64 (i : Int) : Nat := (i % (2 : Int) ^ 64).toNat

/-- Reinterpret the low 64 bits as a signed value. -/
def toI64 (n : Nat) : Int :=
  if n % 2 ^ 64 < 2 ^ 63 then ((n % 2 ^ 64 : Nat) : Int)
  else ((n % 2 ^ 64 : Nat) : Int) - (2 : Int) ^ 64

/-- Reinterpret the low 32 bits as a signed value. -/
def toI32 (n : Nat) : Int :=
  if n % 2 ^ 32 < 2 ^ 31 then ((n % 2 ^ 32 : Nat) : Int)
  else ((n % 2 ^ 32 : Nat) : Int) - (2 : Int) ^ 32

/-- Zigzag encoding of a signed value. -/
def zigzag (i : Int) : Nat :=
  if 0 ≤ i then (2 * i).toNat else (-(2 * i) - 1).toNat

/-- Zigzag decoding. -/
def unzigzag (n : Nat) : Int :=
  if n % 2 = 0 then ((n / 2 : Nat) : Int) else -((n / 2 : Nat) : Int) - 1

/-! ### Scalar wire conversions -/

/-- The wire type used by a scalar kind. -/
def scalarWireType : ScalarKind → Nat
  | .fixed64 => 1
  | .fixed32 => 5
  | .string => 2
  | .bytes => 2
  | _ => 0

/-- A scalar kind is packable when its records are not length-delimited. -/
def packable (sk : ScalarKind) : Bool := scalarWireType sk ≠ 2

/-- Kinds legal as map keys: the integer kinds, bool and string. -/
def isMapKeyKind : ScalarKind → Bool
  | .bytes => false
  | .enum => false
  | _ => true

/-- Encode one scalar value as a wire value (`none` on a kind/value tagged-
union mismatch, which `set_field` validation rules out). -/
def encodeScalarWire : ScalarKind → Value → Option WireValue
  | .bool, .vbool b => some (.varint (if b then 1 else 0))
  | .int32, .vi32 i => some (.varint (toU64 i))
  | .int64, .vi64 i => some (.varint (toU64 i))
  | .uint32, .vu32 n => some (.varint n)
  | .uint64, .vu64 n => some (.varint n)
  | .sint32, .vi32 i => some (.varint (zigzag i))
  | .sint64, .vi64 i => some (.varint (zigzag i))
  | .fixed32, .vu32 n => some (.i32 n)
  | .fixed64, .vu64 n => some (.i64 n)
  | .string, .vstr s => some (.len s)
  | .bytes, .vbytes s => some (.len s)
  | .enum, .venum i => some (.varint (toU64 i))
  | _, _ => none

/-- Decode one scalar record payload into a value; a record whose wire type
does not fit the kind is a wire-type mismatch. -/
def decodeScalarWire : ScalarKind → WireValue → Except DecodeError Value
  | .bool, .varint n => .ok (.vbool (n ≠ 0))
  | .int32, .varint n => .ok (.vi32 (toI32 n))
  | .int64, .varint n => .ok (.vi64 (toI64 n))
  | .uint32, .varint n => .ok (.vu32 (n % 2 ^ 32))
  | .uint64, .varint n => .ok (.vu64 (n % 2 ^ 64))
  | .sint32, .varint n => .ok (.vi32 (unzigzag (n % 2 ^ 32)))
  | .sint64, .varint n => .ok (.vi64 (unzigzag (n % 2 ^ 64)))
  | .fixed32, .i32 n => .ok (.vu32 (n % 2 ^ 32))
  | .fixed64, .i64 n => .ok (.vu64 (n % 2 ^ 64))
  | .string, .len p => .ok (.vstr p)
  | .bytes, .len p => .ok (.vbytes p)
  | .enum, .varint n => .ok (.venum (toI32 n))
  | _, _ => .error .wireTypeMismatch

/-- Encode one map key as a wire value. -/
def encodeMapKeyWire : ScalarKind → MapKey → Option WireValue
  | .bool, .kbool b => some (.varint (if b then 1 else 0))
  | .int32, .ki32 i => some (.varint (toU64 i))
  | .int64, .ki64 i => some (.varint (toU64 i))
  | .uint32, .ku32 n => some (.varint n)
  | .uint64, .ku64 n => some (.varint n)
  | .sint32, .ki32 i => some (.varint (zigzag i))
  | .sint64, .ki64 i => some (.varint (zigzag i))
  | .fixed32, .ku32 n => some (.i32 n)
  | .fixed64, .ku64 n => some (.i64 n)
  | .string, .kstr s => some (.len s)
  | _, _ => none

/-- Decode one map key from a record payload. -/
def decodeMapKeyWire : ScalarKind → WireValue → Except DecodeError MapKey
  | .bool, .varint n => .ok (.kbool (n ≠ 0))
  | .int32, .varint n => .ok (.ki32 (toI32 n))
  | .int64, .varint n => .ok (.ki64 (toI64 n))
  | .uint32, .varint n => .ok (.ku32 (n % 2 ^ 32))
  | .uint64, .varint n => .ok (.ku64 (n % 2 ^ 64))
  | .sint32, .varint n => .ok (.ki32 (unzigzag (n % 2 ^ 32)))
  | .sint64, .varint n => .ok (.ki64 (unzigzag (n % 2 ^ 64)))
  | .fixed32, .i32 n => .ok (.ku32 (n % 2 ^ 32))
  | .fixed64, .i64 n => .ok (.ku64 (n % 2 ^ 64))
  | .string, .len p => .ok (.kstr p)
  | _, _ => .error .wireTypeMismatch

/-- Declared default of a scalar kind (0, false, empty, first enum value). -/
def scalarDefault : ScalarKind → Value
  | .bool => .vbool false
  | .int32 => .vi32 0
  | .int64 => .vi64 0
  | .uint32 => .vu32 0
  | .uint64 => .vu64 0
  | .sint32 => .vi32 0
  | .sint64 => .vi64 0
  | .fixed32 => .vu32 0
  | .fixed64 => .vu64 0
  | .string => .vstr []
  | .bytes => .vbytes []
  | .enum => .venum 0

/-- Default map key of a key kind. -/
def mapKeyDefault : ScalarKind → MapKey
  | .bool => .kbool false
  | .int32 => .ki32 0
  | .int64 => .ki64 0
  | .uint32 => .ku32 0
  | .uint64 => .ku64 0
  | .sint32 => .ki32 0
  | .sint64 => .ki64 0
  | .fixed32 => .ku32 0
  | .fixed64 => .ku64 0
  | .string => .kstr []
  | .bytes => .kbool false
  | .enum => .kbool false

/-- The key kind and value field of a map field: its kind must be a map-entry
message whose field 1 (the key) is scalar and whose field 2 is the value. -/
def mapEntryInfo (pool : DescriptorPool) (fd : FieldDescriptor) :
    Option (ScalarKind × FieldDescriptor) :=
  match fd.kind with
  | .scalar _ => none
  | .message tid =>
      match pool.types[tid]? with
      | none => none
      | some ed =>
          match findField ed 1, findField ed 2 with
          | some kf, some vf =>
              match kf.kind with
              | .scalar sk => some (sk, vf)
              | .message _ => none
          | _, _ => none

/-! ### Wire encoding -/

mutual
/-- Serialize a dynamic message: the present fields in storage order, then
the preserved unknown records verbatim (byte-identical to capture). -/
def encodeMessage (pool : DescriptorPool) (desc : MessageDescriptor)
    (m : DynamicMessage) : Bytes :=
  match m with
  | .mk fields unknown => encodeFields pool desc fields ++ unknown.flatten
termination_by (sizeOf m, 0)

/-- Serialize a present-field table in order. -/
def encodeFields (pool : DescriptorPool) (desc : MessageDescriptor)
    (l : List (Nat × Value)) : Bytes :=
  match l with
  | [] => []
  | (n, v) :: rest =>
      (match findField desc n with
       | some fd => encodeFieldValue pool fd v
       | none => []) ++ encodeFields pool desc rest
termination_by (sizeOf l, 0)

/-- Serialize one present field: map fields as one entry record per pair,
repeated fields as one record per element (unpacked), singular fields as one
record. -/
def encodeFieldValue (pool : DescriptorPool) (fd : FieldDescriptor)
    (v : Value) : Bytes :=
  if fd.is_map then
    match v, mapEntryInfo pool fd with
    | .vmap entries, some (kk, vf) =>
        encodeMapEntries pool fd.number kk vf entries
    | _, _ => []
  else
    match fd.cardinality, v with
    | .repeated, .vlist xs => encodeElems pool fd xs
    | .repeated, _ => []
    | .singular, w => encodeSingleField pool fd w
    | .optional, w => encodeSingleField pool fd w
termination_by (sizeOf v, 1)

/-- Serialize the elements of a repeated field, one record each. -/
def encodeElems (pool : DescriptorPool) (fd : FieldDescriptor)
    (l : List Value) : Bytes :=
  match l with
  | [] => []
  | x :: xs => encodeSingleField pool fd x ++ encodeElems pool fd xs
termination_by (sizeOf l, 0)

/-- Serialize map entries: each pair becomes one length-delimited record
holding the synthetic entry message (key at field 1, value at field 2). -/
def encodeMapEntries (pool : DescriptorPool) (num : Nat) (kk : ScalarKind)
    (vf : FieldDescriptor) (l : List (MapKey × Value)) : Bytes :=
  match l with
  | [] => []
  | (k, ev) :: rest =>
      serializeRecord num (.len
        ((match encodeMapKeyWire kk k with
          | some wv => serializeRecord 1 wv
          | none => []) ++ encodeSingleField pool vf ev)) ++
      encodeMapEntries pool num kk vf rest
termination_by (sizeOf l, 0)

/-- Serialize one record for one value: scalars by their wire kind, embedded
messages as length-delimited recursive encodings. -/
def encodeSingleField (pool : DescriptorPool) (fd : FieldDescriptor)
    (v : Value) : Bytes :=
  match fd.kind with
  | .scalar sk =>
      match encodeScalarWire sk v with
      | some wv => serializeRecord fd.number wv
      | none => []
  | .message tid =>
      match v, pool.types[tid]? with
      | .vmsg sub, some subdesc =>
          serializeRecord fd.number (.len (encodeMessage pool subdesc sub))
      | _, _ => []
termination_by (sizeOf v, 0)
end

/-! ### Wire decoding -/

/-- Append decoded elements to a repeated field (append semantics). -/
def appendElems (m : DynamicMessage) (n : Nat) (xs : List Value) :
    DynamicMessage :=
  match getFieldValue m n with
  | some (.vlist ys) => setFieldRaw m n (.vlist (ys ++ xs))
  | _ => setFieldRaw m n (.vlist xs)

/-- Insert a decoded map entry (last entry for a duplicate key wins). -/
def insertMapEntry (m : DynamicMessage) (n : Nat) (k : MapKey) (ev : Value) :
    DynamicMessage :=
  match getFieldValue m n with
  | some (.vmap es) => setFieldRaw m n (.vmap (insertPair es k ev))
  | _ => setFieldRaw m n (.vmap (insertPair [] k ev))

/-- Default value of a field used for absent map-entry components. -/
def fieldDefault (vf : FieldDescriptor) : Value :=
  match vf.kind with
  | .scalar sk => scalarDefault sk
  | .message _ => .vmsg emptyMessage

/-- Decode a packed run of scalar elements from a length-delimited payload. -/
def decodePacked (sk : ScalarKind) (bs : Bytes) :
    Except DecodeError (List Value) :=
  if bs = [] then .ok []
  else
      match ((match scalarWireType sk with
              | 0 =>
                  match decodeVarint 10 bs with
                  | .ok (v, rem) => .ok (.varint v, rem)
                  | .error e => .error e
              | 1 =>
                  match decodeFixed 8 bs with
                  | .ok (v, rem) => .ok (.i64 v, rem)
                  | .error e => .error e
              | 5 =>
                  match decodeFixed 4 bs with
                  | .ok (v, rem) => .ok (.i32 v, rem)
                  | .error e => .error e
              | _ => .error .wireTypeMismatch) :
            Except DecodeError (WireValue × Bytes)) with
      | .error e => .error e
      | .ok (wv, rest) =>
          match decodeScalarWire sk wv with
          | .error e => .error e
          | .ok v =>
              if hprog : rest.length < bs.length then
                match decodePacked sk rest with
                | .ok vs => .ok (v :: vs)
                | .error e => .error e
              else .error .recursionLimit
termination_by bs.length

mutual
/-- Decode a wire stream into `acc`, record by record: a declared field
number updates the corresponding field (overwrite for singular, append for
repeated — packed and unpacked both accepted — and last-wins insertion for
map entries); an undeclared field number captures the record's raw bytes
verbatim in the unknown-field side table. -/
def decodeMessage (pool : DescriptorPool) (desc : MessageDescriptor)
    (acc : DynamicMessage) (bs : Bytes) : Except DecodeError DynamicMessage :=
  if bs = [] then .ok acc
  else
      match decodeRecord bs with
      | .error e => .error e
      | .ok (n, wv, rest) =>
          if hprog : rest.length < bs.length then
            match findField desc n with
            | none =>
                decodeMessage pool desc
                  (appendUnknown acc (bs.take (bs.length - rest.length))) rest
            | some fd =>
                if fd.is_map then
                  match mapEntryInfo pool fd with
                  | none => .error .missingType
                  | some (kk, vf) =>
                      match wv with
                      | .len payload =>
                          if hpl : payload.length < bs.length then
                            match decodeMapEntry pool kk vf
                                (mapKeyDefault kk, fieldDefault vf) payload with
                            | .error e => .error e
                            | .ok (k, ev) =>
                                decodeMessage pool desc
                                  (insertMapEntry acc n k ev) rest
                          else .error .recursionLimit
                      | _ => .error .wireTypeMismatch
                else
                  match fd.cardinality with
                  | .repeated =>
                      match fd.kind with
                      | .scalar sk =>
                          match wv with
                          | .len payload =>
                              if packable sk then
                                match decodePacked sk payload with
                                | .ok vs =>
                                    decodeMessage pool desc
                                      (appendElems acc n vs) rest
                                | .error e => .error e
                              else
                                match decodeScalarWire sk wv with
                                | .ok v =>
                                    decodeMessage pool desc
                                      (appendElems acc n [v]) rest
                                | .error e => .error e
                          | _ =>
                              match decodeScalarWire sk wv with
                              | .ok v =>
                                  decodeMessage pool desc
                                    (appendElems acc n [v]) rest
                              | .error e => .error e
                      | .message tid =>
                          match wv with
                          | .len payload =>
                              match pool.types[tid]? with
                              | none => .error .missingType
                              | some subdesc =>
                                  if hpl : payload.length < bs.length then
                                    match decodeMessage pool subdesc
                                        emptyMessage payload with
                                    | .ok sub =>
                                        decodeMessage pool desc
                                          (appendElems acc n [.vmsg sub]) rest
                                    | .error e => .error e
                                  else .error .recursionLimit
                          | _ => .error .wireTypeMismatch
                  | _ =>
                      match fd.kind with
                      | .scalar sk =>
                          match decodeScalarWire sk wv with
                          | .ok v =>
                              decodeMessage pool desc
                                (setFieldRaw acc n v) rest
                          | .error e => .error e
                      | .message tid =>
                          match wv with
                          | .len payload =>
                              match pool.types[tid]? with
                              | none => .error .missingType
                              | some subdesc =>
                                  if hpl : payload.length < bs.length then
                                    match decodeMessage pool subdesc
                                        emptyMessage payload with
                                    | .ok sub =>
                                        decodeMessage pool desc
                                          (setFieldRaw acc n (.vmsg sub)) rest
                                    | .error e => .error e
                                  else .error .recursionLimit
                          | _ => .error .wireTypeMismatch
          else .error .recursionLimit
termination_by bs.length

/-- Decode a synthetic map-entry message: field 1 is the key, field 2 the
value; later records overwrite earlier ones; other field numbers are
skipped. -/
def decodeMapEntry (pool : DescriptorPool) (kk : ScalarKind)
    (vf : FieldDescriptor) (acc : MapKey × Value) (bs : Bytes) :
    Except DecodeError (MapKey × Value) :=
  if bs = [] then .ok acc
  else
      match decodeRecord bs with
      | .error e => .error e
      | .ok (n, wv, rest) =>
          if hprog : rest.length < bs.length then
            if n = 1 then
              match decodeMapKeyWire kk wv with
              | .ok k => decodeMapEntry pool kk vf (k, acc.2) rest
              | .error e => .error e
            else if n = 2 then
              match vf.kind with
              | .scalar sk =>
                  match decodeScalarWire sk wv with
                  | .ok v => decodeMapEntry pool kk vf (acc.1, v) rest
                  | .error e => .error e
              | .message tid =>
                  match wv with
                  | .len payload =>
                      match pool.types[tid]? with
                      | none => .error .missingType
                      | some subdesc =>
                          if hpl : payload.length < bs.length then
                            match decodeMessage pool subdesc emptyMessage
                                payload with
                            | .ok sub =>
                                decodeMapEntry pool kk vf
                                  (acc.1, .vmsg sub) rest
                            | .error e => .error e
                          else .error .recursionLimit
                  | _ => .error .wireTypeMismatch
            else decodeMapEntry pool kk vf acc rest
          else .error .recursionLimit
termination_by bs.length
end

/-- Decode wire bytes into a fresh dynamic message bound to `desc`: the
all-or-nothing entry point of the codec. -/
def decode (pool : DescriptorPool) (desc : MessageDescriptor) (bs : Bytes) :
    Except DecodeError DynamicMessage :=
  decodeMessage pool desc emptyMessage bs

/-! ### Well-formedness of values and messages -/

/-- Valid payload ranges for one wire value. -/
def wireValueValid : WireValue → Bool
  | .varint n => decide (n < 2 ^ 64)
  | .i64 n => decide (n < 2 ^ 64)
  | .len p => decide (p.length < 2 ^ 70)
  | .i32 n => decide (n < 2 ^ 32)

/-- A well-formed record: a declarable field number and a valid payload. -/
def recordValid (n : Nat) (wv : WireValue) : Bool :=
  decide (1 ≤ n ∧ n < 2 ^ 29) && wireValueValid wv

/-- Serialize a record list back to back. -/
def serializeRecords : List (Nat × WireValue) → Bytes
  | [] => []
  | (n, wv) :: rest => serializeRecord n wv ++ serializeRecords rest

/-- A preserved unknown entry is the raw bytes of exactly one well-formed
record whose field number the descriptor does not declare. -/
def isWfUnknown (desc : MessageDescriptor) (raw : Bytes) : Bool :=
  match decodeRecord raw with
  | .ok (n, _, rest) => rest.isEmpty && (findField desc n).isNone
  | .error _ => false

/-- Tagged-union and range validity of one scalar value for a kind. -/
def scalarValueValid : ScalarKind → Value → Bool
  | .bool, .vbool _ => true
  | .int32, .vi32 i => decide (-(2 : Int) ^ 31 ≤ i ∧ i < 2 ^ 31)
  | .int64, .vi64 i => decide (-(2 : Int) ^ 63 ≤ i ∧ i < 2 ^ 63)
  | .uint32, .vu32 n => decide (n < 2 ^ 32)
  | .uint64, .vu64 n => decide (n < 2 ^ 64)
  | .sint32, .vi32 i => decide (-(2 : Int) ^ 31 ≤ i ∧ i < 2 ^ 31)
  | .sint64, .vi64 i => decide (-(2 : Int) ^ 63 ≤ i ∧ i < 2 ^ 63)
  | .fixed32, .vu32 n => decide (n < 2 ^ 32)
  | .fixed64, .vu64 n => decide (n < 2 ^ 64)
  | .string, .vstr s => decide (s.length < 2 ^ 64)
  | .bytes, .vbytes s => decide (s.length < 2 ^ 64)
  | .enum, .venum i => decide (-(2 : Int) ^ 31 ≤ i ∧ i < 2 ^ 31)
  | _, _ => false

/-- Tagged-union and range validity of one map key for a key kind. -/
def mapKeyValid : ScalarKind → MapKey → Bool
  | .bool, .kbool _ => true
  | .int32, .ki32 i => decide (-(2 : Int) ^ 31 ≤ i ∧ i < 2 ^ 31)
  | .int64, .ki64 i => decide (-(2 : Int) ^ 63 ≤ i ∧ i < 2 ^ 63)
  | .uint32, .ku32 n => decide (n < 2 ^ 32)
  | .uint64, .ku64 n => decide (n < 2 ^ 64)
  | .sint32, .ki32 i => decide (-(2 : Int) ^ 31 ≤ i ∧ i < 2 ^ 31)
  | .sint64, .ki64 i => decide (-(2 : Int) ^ 63 ≤ i ∧ i < 2 ^ 63)
  | .fixed32, .ku32 n => decide (n < 2 ^ 32)
  | .fixed64, .ku64 n => decide (n < 2 ^ 64)
  | .string, .kstr s => decide (s.length < 2 ^ 64)
  | _, _ => false

mutual
/-- A dynamic message is valid for its descriptor when every present field is
declared with a matching value (numbers distinct), and every unknown entry is
one well-formed undeclared record. -/
def validMessage (pool : DescriptorPool) (desc : MessageDescriptor)
    (m : DynamicMessage) : Bool :=
  match m with
  | .mk fields unknown =>
      validFields pool desc fields &&
      decide ((fields.map Prod.fst).Nodup) &&
      unknown.all (isWfUnknown desc)
termination_by (sizeOf m, 0)

/-- Validity of a present-field table. -/
def validFields (pool : DescriptorPool) (desc : MessageDescriptor)
    (l : List (Nat × Value)) : Bool :=
  match l with
  | [] => true
  | (n, v) :: rest =>
      decide (1 ≤ n ∧ n < 2 ^ 29) &&
      (match findField desc n with
       | some fd => validFieldValue pool fd v
       | none => false) &&
      validFields pool desc rest
termination_by (sizeOf l, 0)

/-- Validity of one present field's value against its descriptor. -/
def validFieldValue (pool : DescriptorPool) (fd : FieldDescriptor)
    (v : Value) : Bool :=
  if fd.is_map then
    match v, mapEntryInfo pool fd with
    | .vmap entries, some (kk, vf) =>
        isMapKeyKind kk && decide (vf.number = 2) && !vf.is_map &&
        !entries.isEmpty && decide ((entries.map Prod.fst).Nodup) &&
        validPairs pool kk vf entries
    | _, _ => false
  else
    match fd.cardinality, v with
    | .repeated, .vlist xs => !xs.isEmpty && validElems pool fd.kind xs
    | .repeated, _ => false
    | .singular, w => validSingle pool fd.kind w
    | .optional, w => validSingle pool fd.kind w
termination_by (sizeOf v, 1)

/-- Validity of repeated elements. -/
def validElems (pool : DescriptorPool) (k : Kind) (l : List Value) : Bool :=
  match l with
  | [] => true
  | x :: xs => validSingle pool k x && validElems pool k xs
termination_by (sizeOf l, 0)

/-- Validity of map entries. -/
def validPairs (pool : DescriptorPool) (kk : ScalarKind)
    (vf : FieldDescriptor) (l : List (MapKey × Value)) : Bool :=
  match l with
  | [] => true
  | (k, ev) :: rest =>
      mapKeyValid kk k && validSingle pool vf.kind ev &&
      validPairs pool kk vf rest
termination_by (sizeOf l, 0)

/-- Validity of one singular value: scalars by kind and range, embedded
messages recursively (with an encodable length). -/
def validSingle (pool : DescriptorPool) (k : Kind) (v : Value) : Bool :=
  match k, v with
  | .scalar sk, w => scalarValueValid sk w
  | .message tid, .vmsg sub =>
      (match pool.types[tid]? with
       | some subdesc =>
           validMessage pool subdesc sub &&
           decide ((encodeMessage pool subdesc sub).length < 2 ^ 64)
       | none => false)
  | .message _, _ => false
termination_by (sizeOf v, 0)
end

/-! ### Nesting height (the induction measure of the round-trip proof) -/

mutual
/-- Nesting height of a message. -/
def msgHeight : DynamicMessage → Nat
  | .mk fields _ => fieldsHeight fields + 1
termination_by m => (sizeOf m, 0)

/-- Nesting height of a field table. -/
def fieldsHeight : List (Nat × Value) → Nat
  | [] => 0
  | (_, v) :: rest => max (valueHeight v) (fieldsHeight rest)
termination_by l => (sizeOf l, 1)

/-- Nesting height of a value. -/
def valueHeight : Value → Nat
  | .vmsg m => msgHeight m
  | .vlist xs => elemsHeight xs
  | .vmap es => pairsHeight es
  | _ => 0
termination_by v => (sizeOf v, 0)

/-- Nesting height of repeated elements. -/
def elemsHeight : List Value → Nat
  | [] => 0
  | x :: xs => max (valueHeight x) (elemsHeight xs)
termination_by l => (sizeOf l, 1)

/-- Nesting height of map entries. -/
def pairsHeight : List (MapKey × Value) → Nat
  | [] => 0
  | (_, ev) :: rest => max (valueHeight ev) (pairsHeight rest)
termination_by l => (sizeOf l, 1)
end

/-! ### Field mutation and oneof exclusivity (modelled from the spec) -/

/-- A dynamic type error: the value's tagged-union kind disagrees with the
field descriptor's declared kind. -/
inductive TypeError
  | mismatch
deriving DecidableEq

/-- Shallow (constructor-level) kind check applied by `set_field`. -/
def valueKindMatches (fd : FieldDescriptor) (v : Value) : Bool :=
  if fd.is_map then
    match v with
    | .vmap _ => true
    | _ => false
  else
    match fd.cardinality with
    | .repeated =>
        match v with
        | .vlist _ => true
        | _ => false
    | _ =>
        match fd.kind, v with
        | .scalar sk, w => (encodeScalarWire sk w).isSome
        | .message _, .vmsg _ => true
        | .message _, _ => false

/-- The numbers of the other members of `fd`'s oneof, if it belongs to one. -/
def oneofSiblings (desc : MessageDescriptor) (fd : FieldDescriptor) :
    List Nat :=
  match fd.oneof_index with
  | none => []
  | some oi =>
      (desc.fields.filter fun g =>
        g.oneof_index == some oi && g.number != fd.number).map (·.number)

/-- Remove the listed field numbers from a field table. -/
def clearFieldNums (fields : List (Nat × Value)) (nums : List Nat) :
    List (Nat × Value) :=
  fields.filter fun e => decide (e.1 ∉ nums)

/-- Modelled from the spec: `set_field` (in `dynamic.rs`, not part of the
provided sources) validates the value's kind against the declared kind, then
clears any sibling member of the same oneof before storing the value. -/
def set_field (desc : MessageDescriptor) (m : DynamicMessage)
    (fd : FieldDescriptor) (v : Value) : Except TypeError DynamicMessage :=
  if valueKindMatches fd v then
    .ok (.mk (replaceOrAppend (clearFieldNums m.fields (oneofSiblings desc fd))
          fd.number v) m.unknown)
  else .error .mismatch

/-- Presence test of field number `n`. -/
def has_field (m : DynamicMessage) (n : Nat) : Bool :=
  (getFieldValue m n).isSome

/-- The oneof invariant: at most one member field of each oneof is present —
any two present members of the same oneof are the same field.  (Decidable:
the quantifiers range over the descriptor's field list.) -/
def oneofExclusive (desc : MessageDescriptor) (m : DynamicMessage) : Prop :=
  ∀ g1 ∈ desc.fields, ∀ g2 ∈ desc.fields,
    g1.oneof_index = g2.oneof_index → g1.oneof_index ≠ none →
    has_field m g1.number = true → has_field m g2.number = true →
    g1.number = g2.number

instance oneofExclusiveDec (desc : MessageDescriptor) (m : DynamicMessage) :
    Decidable (oneofExclusive desc m) :=
  inferInstanceAs (Decidable (∀ g1 ∈ desc.fields, ∀ g2 ∈ desc.fields,
    g1.oneof_index = g2.oneof_index → g1.oneof_index ≠ none →
    has_field m g1.number = true → has_field m g2.number = true →
    g1.number = g2.number))

/-! ### Sample descriptors and messages for the closed witnesses -/

/-- A message descriptor with one `uint32` field (type id 1). -/
def subDesc : MessageDescriptor :=
  ⟨[⟨1, .scalar .uint32, .singular, false, none⟩]⟩

/-- A synthetic map-entry descriptor: string key, `uint32` value (id 2). -/
def entryDesc : MessageDescriptor :=
  ⟨[⟨1, .scalar .string, .singular, false, none⟩,
    ⟨2, .scalar .uint32, .singular, false, none⟩]⟩

/-- The main sample descriptor (type id 0): a `uint32`, a oneof of fields 3
and 5, a repeated `sint64`, a nested message and a map field. -/
def mainDesc : MessageDescriptor :=
  ⟨[⟨1, .scalar .uint32, .singular, false, none⟩,
    ⟨3, .scalar .uint64, .optional, false, some 0⟩,
    ⟨5, .scalar .string, .optional, false, some 0⟩,
    ⟨6, .scalar .sint64, .repeated, false, none⟩,
    ⟨7, .message 1, .singular, false, none⟩,
    ⟨8, .message 2, .repeated, true, none⟩]⟩

/-- The sample pool. -/
def samplePool : DescriptorPool := ⟨[mainDesc, subDesc, entryDesc]⟩

/-- A sample dynamic message exercising scalar, repeated, nested-message and
map fields, plus one preserved unknown record (field 99, varint 1, raw bytes
`[152, 6, 1]`). -/
def sampleMsg : DynamicMessage :=
  .mk [(1, .vu32 7),
       (6, .vlist [.vi64 (-3), .vi64 4]),
       (7, .vmsg (.mk [(1, .vu32 9)] [])),
       (8, .vmap [(.kstr [97], .vu32 1), (.kstr [98], .vu32 2)])]
      [[152, 6, 1]]

/-! ## Theorems -/

theorem notDot_dot : notDot '.' = false := by decide

theorem notDot_of_ne {c : Char} (h : c ≠ '.') : notDot c = true := by
  simp [notDot, h]

theorem dropWhile_dot_mem {l : Name} (h : '.' ∈ l) :
    ∃ t, l.dropWhile notDot = '.' :: t := by
  induction l with
  | nil => cases h
  | cons a l ih =>
    by_cases ha : a = '.'
    · subst ha
      exact ⟨l, by simp [List.dropWhile_cons, notDot_dot]⟩
    · have hmem : '.' ∈ l := by
        rcases List.mem_cons.mp h with h1 | h1
        · exact absurd h1.symm ha
        · exact h1
      rcases ih hmem with ⟨t, ht⟩
      exact ⟨t, by simp [List.dropWhile_cons, notDot_of_ne ha, ht]⟩

theorem parse_name_no_dot (s : Name) : '.' ∉ parse_name s := by
  intro hmem
  have h := List.mem_takeWhile_imp (l := s.reverse)
    (p := notDot) (List.mem_reverse.mp hmem)
  rw [notDot_dot] at h
  cases h

/-- When the name contains a separator, it decomposes as
`parse_namespace s ++ "." ++ parse_name s`. -/
theorem parse_split_of_mem {s : Name} (h : '.' ∈ s) :
    parse_namespace s ++ '.' :: parse_name s = s := by
  have hrev : '.' ∈ s.reverse := List.mem_reverse.mpr h
  rcases dropWhile_dot_mem hrev with ⟨t, ht⟩
  have hsplit : s.reverse.takeWhile notDot ++ s.reverse.dropWhile notDot
      = s.reverse := List.takeWhile_append_dropWhile notDot s.reverse
  have hs : (s.reverse.takeWhile notDot ++ '.' :: t).reverse = s := by
    rw [← ht, hsplit, List.reverse_reverse]
  calc parse_namespace s ++ '.' :: parse_name s
      = (s.reverse.takeWhile notDot ++ '.' :: t).reverse := by
        simp [parse_namespace, parse_name, ht, List.reverse_append]
    _ = s := hs

/-- When the name contains no separator, the namespace is empty and the short
name is the whole string. -/
theorem parse_split_of_not_mem {s : Name} (h : '.' ∉ s) :
    parse_namespace s = [] ∧ parse_name s = s := by
  have hall : ∀ c ∈ s.reverse, notDot c = true := by
    intro c hc
    refine notDot_of_ne ?_
    intro hcdot
    exact h (by simpa [hcdot] using List.mem_reverse.mp hc)
  constructor
  · simp [parse_namespace, List.dropWhile_eq_nil_iff.mpr hall]
  · simp [parse_name, List.takeWhile_eq_self_iff.mpr hall]

/-- `parse_namespace` strictly shortens a nonempty name. -/
theorem parse_namespace_length_lt {s : Name} (h : s ≠ []) :
    (parse_namespace s).length < s.length := by
  by_cases hdot : '.' ∈ s
  · have := congrArg List.length (parse_split_of_mem hdot)
    simp at this
    omega
  · rcases parse_split_of_not_mem hdot with ⟨h1, _⟩
    rw [h1]
    simpa [List.length_pos] using h

/-- C2: `ServiceDescriptor` / `MethodDescriptor` equality holds iff the two
handles address the same underlying shared state (by identity) and carry the
same index(es); handles over distinct pools with structurally identical
metadata compare unequal. -/
theorem c2_handle_equality_iff (I : Type) (deref : I → FileDescriptorInner) :
    (∀ a b : ServiceDescriptor I,
      ServiceDescriptor.beqHandle a b = true ↔
        a.file_descriptor.stateId = b.file_descriptor.stateId ∧
        a.index = b.index)
    ∧ (∀ a b : MethodDescriptor I,
      MethodDescriptor.beqHandle a b = true ↔
        a.service.file_descriptor.stateId = b.service.file_descriptor.stateId ∧
        a.service.index = b.service.index ∧ a.index = b.index)
    ∧ (∀ a b : ServiceDescriptor I,
        deref a.file_descriptor.inner = deref b.file_descriptor.inner →
        a.index = b.index →
        a.file_descriptor.stateId ≠ b.file_descriptor.stateId →
        ServiceDescriptor.beqHandle a b = false)
    ∧ (∀ a b : MethodDescriptor I,
        deref a.service.file_descriptor.inner =
          deref b.service.file_descriptor.inner →
        a.service.index = b.service.index → a.index = b.index →
        a.service.file_descriptor.stateId ≠
          b.service.file_descriptor.stateId →
        MethodDescriptor.beqHandle a b = false) := by
  refine ⟨fun a b => ?_, fun a b => ?_, fun a b _ _ hne => ?_,
    fun a b _ _ _ hne => ?_⟩
  · simp [ServiceDescriptor.beqHandle, fileEqB, Bool.and_eq_true]
  · simp [MethodDescriptor.beqHandle, ServiceDescriptor.beqHandle, fileEqB,
      Bool.and_eq_true, and_assoc]
  · simp [ServiceDescriptor.beqHandle, fileEqB, hne]
  · simp [MethodDescriptor.beqHandle, ServiceDescriptor.beqHandle, fileEqB,
      hne]

theorem c2_handle_equality_iff_witness :
    ServiceDescriptor.beqHandle (I := FileDescriptorInner)
      ⟨⟨0, emptyFileInner⟩, 3⟩ ⟨⟨1, emptyFileInner⟩, 3⟩ = false :=
  (c2_handle_equality_iff FileDescriptorInner id).2.2.1 _ _ rfl rfl
    (by decide)

/-- C4 counterexample: in a release build, `ServiceDescriptor::new` with an
out-of-range index does *not* panic — the `debug_assert!` bounds check is
compiled out, so construction is silently tolerated (here: a file with zero
services, index 0, yields a handle rather than the panic that `none` would
model). -/
theorem c4_release_new_no_panic :
    ServiceDescriptor.new (I := FileDescriptorInner) .release id
      ⟨0, emptyFileInner⟩ 0 = some ⟨⟨0, emptyFileInner⟩, 0⟩ := rfl

/-- C4 (amended): constructing a handle with an out-of-range index is a
contract violation: in debug builds `new` panics via `debug_assert!`; in
release builds `new` performs no check and silently succeeds, the violation
instead surfacing as a panic when any accessor dereferences the descriptor
data. -/
theorem c4_new_bounds_contract (I : Type) (deref : I → FileDescriptorInner)
    (fd : FileDescriptor I) (index : Nat)
    (h : ¬ index < (deref fd.inner).services.length) :
    ServiceDescriptor.new .debug deref fd index = none
    ∧ (∀ s, ServiceDescriptor.new .release deref fd index = some s →
        s.innerData deref = none)
    ∧ (∀ (svc : ServiceDescriptor I) (midx : Nat),
        svc.innerData deref = none →
        MethodDescriptor.new .debug deref svc midx = none)
    ∧ (∀ (svc : ServiceDescriptor I) (inn : ServiceDescriptorInner)
        (midx : Nat), svc.innerData deref = some inn →
        ¬ midx < inn.methods.length →
        MethodDescriptor.new .debug deref svc midx = none
        ∧ ∀ m, MethodDescriptor.new .release deref svc midx = some m →
            m.innerData deref = none) := by
  refine ⟨?_, ?_, ?_, ?_⟩
  · simp [ServiceDescriptor.new, h]
  · intro s hs
    have hsome : s = { file_descriptor := fd, index } := by
      simpa [ServiceDescriptor.new] using hs.symm
    subst hsome
    simp only [ServiceDescriptor.innerData]
    exact List.getElem?_eq_none (by omega)
  · intro svc midx hnone
    simp [MethodDescriptor.new, hnone]
  · intro svc inn midx hsome hmidx
    refine ⟨by simp [MethodDescriptor.new, hsome, hmidx], ?_⟩
    intro m hm
    have hm' : m = { service := svc, index := midx } := by
      simpa [MethodDescriptor.new] using hm.symm
    subst hm'
    simp only [MethodDescriptor.innerData, hsome, Option.some_bind]
    exact List.getElem?_eq_none (by omega)

theorem c4_new_bounds_contract_witness :
    ServiceDescriptor.new (I := FileDescriptorInner) .debug id
      ⟨0, emptyFileInner⟩ 0 = none :=
  (c4_new_bounds_contract FileDescriptorInner id
    ⟨0, emptyFileInner⟩ 0 (by decide)).1

/-- C8: `parse_name` returns the substring after the last separator and
`parse_namespace` the substring before it (empty when there is none), and the
service/method accessors `name`/`package_name` are exactly these functions
applied to `full_name`. -/
theorem c8_name_parsing :
    (∀ s : Name, '.' ∉ parse_name s)
    ∧ (∀ s : Name, '.' ∈ s → parse_namespace s ++ '.' :: parse_name s = s)
    ∧ (∀ s : Name, '.' ∉ s → parse_namespace s = [] ∧ parse_name s = s)
    ∧ (∀ (I : Type) (deref : I → FileDescriptorInner)
        (sd : ServiceDescriptor I),
        sd.shortName deref = (sd.fullName deref).map parse_name ∧
        sd.packageName deref = (sd.fullName deref).map parse_namespace)
    ∧ (∀ (I : Type) (deref : I → FileDescriptorInner)
        (m : MethodDescriptor I),
        m.shortName deref = (m.fullName deref).map parse_name) := by
  exact ⟨parse_name_no_dot, fun s => parse_split_of_mem,
    fun s => parse_split_of_not_mem,
    fun I deref sd => ⟨rfl, rfl⟩, fun I deref m => rfl⟩

theorem c8_name_parsing_witness :
    parse_namespace ['a', '.', 'b', '.', 'C'] ++ '.' ::
      parse_name ['a', '.', 'b', '.', 'C'] = ['a', '.', 'b', '.', 'C'] :=
  c8_name_parsing.2.1 ['a', '.', 'b', '.', 'C'] (by decide)

/-- C9: `methods()` yields exactly one handle per method of the service, in
index order `0..count`, each referencing the service as its parent; the
sequence is finite with exact length equal to the method count (and, the
embedding being pure, re-invoking it restarts from the first method and
mutates nothing). -/
theorem c9_methods_iterator (I : Type) (deref : I → FileDescriptorInner)
    (s : ServiceDescriptor I) (inn : ServiceDescriptorInner)
    (h : s.innerData deref = some inn) :
    ∃ ms : List (MethodDescriptor I),
      s.methodsList deref = some ms ∧
      ms.length = inn.methods.length ∧
      ∀ i (hi : i < ms.length),
        ms.get ⟨i, hi⟩ = { service := s, index := i } := by
  refine ⟨(List.range inn.methods.length).map
    fun index => { service := s, index }, ?_, by simp, ?_⟩
  · simp [ServiceDescriptor.methodsList, h]
  · intro i hi
    simp

theorem c9_methods_iterator_witness :
    ∃ ms : List (MethodDescriptor FileDescriptorInner),
      ServiceDescriptor.methodsList id sampleService = some ms ∧
      ms.length = sampleServiceInner.methods.length ∧
      ∀ i (hi : i < ms.length),
        ms.get ⟨i, hi⟩ = { service := sampleService, index := i } :=
  c9_methods_iterator FileDescriptorInner id sampleService
    sampleServiceInner rfl

/-- C10: a borrowed handle addresses the same file state (same identity tag)
and index as the original, and every accessor agrees between the two. -/
theorem c10_borrow_agrees (I : Type) (deref : I → FileDescriptorInner)
    (s : ServiceDescriptor I) (m : MethodDescriptor I) :
    (s.borrow deref).file_descriptor.stateId = s.file_descriptor.stateId
    ∧ (s.borrow deref).index = s.index
    ∧ (s.borrow deref).innerData id = s.innerData deref
    ∧ (s.borrow deref).fullName id = s.fullName deref
    ∧ (s.borrow deref).shortName id = s.shortName deref
    ∧ (s.borrow deref).packageName id = s.packageName deref
    ∧ ((s.borrow deref).methodsList id).map List.length =
        (s.methodsList deref).map List.length
    ∧ (m.borrow deref).service.file_descriptor.stateId =
        m.service.file_descriptor.stateId
    ∧ (m.borrow deref).service.index = m.service.index
    ∧ (m.borrow deref).index = m.index
    ∧ (m.borrow deref).fullName id = m.fullName deref
    ∧ (m.borrow deref).shortName id = m.shortName deref
    ∧ (m.borrow deref).isClientStreaming id = m.isClientStreaming deref
    ∧ (m.borrow deref).isServerStreaming id = m.isServerStreaming deref := by
  refine ⟨rfl, rfl, rfl, rfl, rfl, rfl, ?_, rfl, rfl, rfl, rfl, rfl, rfl, rfl⟩
  cases hsv : (deref s.file_descriptor.inner).services[s.index]? <;>
    simp [ServiceDescriptor.methodsList, ServiceDescriptor.borrow,
      ServiceDescriptor.innerData, FileDescriptor.borrow, hsv]

/-- The relative search visits exactly the scope chain, innermost first,
returning the first hit. -/
theorem resolveRel_eq_firstSome (tm : TypeMap) (nm : Name) :
    ∀ (k : Nat) (ns : Name), ns.length ≤ k →
      tm.resolveRel ns nm =
        lookupToResult nm
          (firstSome (fun sc => tm.getByName (make_full_name sc nm))
            (scopeChain ns)) := by
  intro k
  induction k with
  | zero =>
    intro ns hns
    have h0 : ns = [] := List.length_eq_zero.mp (Nat.le_zero.mp hns)
    subst h0
    rw [TypeMap.resolveRel, scopeChain]
    cases h : tm.getByName (make_full_name [] nm) <;>
      simp [firstSome, lookupToResult, h]
  | succ k ih =>
    intro ns hns
    by_cases h0 : ns = []
    · subst h0
      rw [TypeMap.resolveRel, scopeChain]
      cases h : tm.getByName (make_full_name [] nm) <;>
        simp [firstSome, lookupToResult, h]
    · rw [TypeMap.resolveRel, scopeChain]
      have hlt : (parse_namespace ns).length ≤ k := by
        have := parse_namespace_length_lt h0
        omega
      cases h : tm.getByName (make_full_name ns nm) with
      | some t => simp [firstSome, lookupToResult, h, h0]
      | none =>
        simp only [firstSome, h, h0, dif_neg]
        exact ih (parse_namespace ns) hlt

/-- C3: `resolve_type_name` looks an absolute name (leading separator) up
directly regardless of scope, searches a relative name through the scope
chain from the innermost enclosing scope outward to the root returning the
first match (a descriptor error when no scope matches); `Inner` from scope
`a.b.Outer` yields `a.b.Outer.Inner` and absolute `.a.b.Outer.Inner` resolves
identically from any scope; `MethodDescriptorInner::from_raw` resolves method
input/output types exactly this way at pool-build time. -/
theorem c3_resolve_type_name (tm : TypeMap) (ns nm : Name) :
    (nm.head? = some '.' →
      tm.resolve_type_name ns nm = lookupToResult nm (tm.getByName nm.tail)
      ∧ ∀ ns', tm.resolve_type_name ns nm = tm.resolve_type_name ns' nm)
    ∧ (nm.head? ≠ some '.' →
      tm.resolve_type_name ns nm =
        lookupToResult nm
          (firstSome (fun sc => tm.getByName (make_full_name sc nm))
            (scopeChain ns)))
    ∧ (∀ t, tm.getByName fqInner = some t →
        tm.resolve_type_name scOuter nmInner = .ok t
        ∧ ∀ sc', tm.resolve_type_name sc' ('.' :: fqInner) = .ok t)
    ∧ (∀ raw inner,
        MethodDescriptorInner.from_raw ns raw tm = .ok inner ↔
          ∃ rt ot, tm.resolve_type_name ns raw.input_type = .ok rt ∧
            tm.resolve_type_name ns raw.output_type = .ok ot ∧
            inner = ⟨make_full_name ns raw.name, rt, ot,
              raw.server_streaming, raw.client_streaming⟩) := by
  refine ⟨fun hd => ⟨?_, fun ns' => ?_⟩, fun hd => ?_,
    fun t ht => ⟨?_, fun sc' => ?_⟩, fun raw inner => ?_⟩
  · simp [TypeMap.resolve_type_name, hd]
  · simp [TypeMap.resolve_type_name, hd]
  · rw [TypeMap.resolve_type_name, if_neg (by simp [hd])]
    exact resolveRel_eq_firstSome tm nm ns.length ns le_rfl
  · have hmf : make_full_name scOuter nmInner = fqInner := by
      rw [make_full_name, if_neg (by decide)]
      rfl
    rw [TypeMap.resolve_type_name, if_neg (by decide), TypeMap.resolveRel,
      hmf, ht]
  · rw [TypeMap.resolve_type_name,
      if_pos (show ('.' :: fqInner).head? = some '.' from rfl)]
    simp [lookupToResult, ht]
  · rw [MethodDescriptorInner.from_raw]
    cases hr : tm.resolve_type_name ns raw.input_type with
    | error e => simp [hr]
    | ok rt =>
      cases ho : tm.resolve_type_name ns raw.output_type with
      | error e => simp [ho]
      | ok ot =>
        constructor
        · intro h
          exact ⟨rt, ot, rfl, rfl, by simpa using h.symm⟩
        · rintro ⟨rt', ot', hrt, hot, hinner⟩
          cases hrt
          cases hot
          subst hinner
          rfl

theorem c3_resolve_type_name_witness :
    TypeMap.resolve_type_name ⟨[(fqInner, 7)]⟩ scOuter nmInner = .ok 7 :=
  ((c3_resolve_type_name ⟨[(fqInner, 7)]⟩ scOuter nmInner).2.2.1 7
    (by rfl)).1

/-! ### Varint and fixed-width lemmas -/

theorem encodeVarint_small {n : Nat} (h : n < 128) : encodeVarint n = [n] := by
  rw [encodeVarint, dif_pos h]

theorem encodeVarint_large {n : Nat} (h : ¬ n < 128) :
    encodeVarint n = (n % 128 + 128) :: encodeVarint (n / 128) := by
  rw [encodeVarint, dif_neg h]

theorem decodeVarint_nil (fuel : Nat) :
    decodeVarint fuel [] = .error .truncated := by
  cases fuel <;> rfl

theorem decodeVarint_zero (b : Nat) (t : Bytes) :
    decodeVarint 0 (b :: t) = .error .invalidVarint := rfl

theorem decodeVarint_cons (f b : Nat) (t : Bytes) :
    decodeVarint (f + 1) (b :: t) =
      if b % 256 < 128 then .ok (b % 256, t)
      else
        match decodeVarint f t with
        | .ok (v, rem) => .ok (v * 128 + (b % 256 - 128), rem)
        | .error e => .error e := rfl

theorem decodeVarint_encode :
    ∀ (fuel n : Nat) (rest : Bytes), 0 < fuel → n < 128 ^ fuel →
      decodeVarint fuel (encodeVarint n ++ rest) = .ok (n, rest) := by
  intro fuel
  induction fuel with
  | zero => intro n rest h; omega
  | succ f ih =>
    intro n rest _ hn
    by_cases h : n < 128
    · rw [encodeVarint_small h]
      have hmod : n % 256 = n := Nat.mod_eq_of_lt (by omega)
      simp [decodeVarint_cons, hmod, h]
    · rw [encodeVarint_large h]
      have hb : (n % 128 + 128) % 256 = n % 128 + 128 :=
        Nat.mod_eq_of_lt (by omega)
      have hdiv : n / 128 < 128 ^ f := by
        rw [pow_succ, Nat.mul_comm] at hn
        exact Nat.div_lt_of_lt_mul hn
      have hf : 0 < f := by
        rcases Nat.eq_zero_or_pos f with h0 | h0
        · subst h0; simp at hdiv; omega
        · exact h0
      have hrec := ih (n / 128) rest hf hdiv
      rw [List.cons_append, decodeVarint_cons, if_neg (by omega), hrec]
      have heq : n / 128 * 128 + ((n % 128 + 128) % 256 - 128) = n := by
        rw [hb]; omega
      simp [heq]

theorem decodeVarint_length :
    ∀ (fuel : Nat) (bs : Bytes) (v : Nat) (rest : Bytes),
      decodeVarint fuel bs = .ok (v, rest) → rest.length < bs.length := by
  intro fuel
  induction fuel with
  | zero =>
    intro bs v rest h
    cases bs with
    | nil => rw [decodeVarint_nil] at h; cases h
    | cons b t => rw [decodeVarint_zero] at h; cases h
  | succ f ih =>
    intro bs v rest h
    cases bs with
    | nil => rw [decodeVarint_nil] at h; cases h
    | cons b t =>
      rw [decodeVarint_cons] at h
      by_cases hb : b % 256 < 128
      · rw [if_pos hb] at h
        cases h
        simp
      · rw [if_neg hb] at h
        rcases hrec : decodeVarint f t with _ | ⟨v1, rem1⟩
        · rw [hrec] at h
          cases h
        · rw [hrec] at h
          simp only [Except.ok.injEq, Prod.mk.injEq] at h
          obtain ⟨-, h2⟩ := h
          subst h2
          have := ih t v1 _ hrec
          simp only [List.length_cons]
          omega

theorem decodeFixed_zero (bs : Bytes) : decodeFixed 0 bs = .ok (0, bs) := rfl

theorem decodeFixed_nil (w : Nat) :
    decodeFixed (w + 1) [] = .error .truncated := rfl

theorem decodeFixed_cons (w b : Nat) (t : Bytes) :
    decodeFixed (w + 1) (b :: t) =
      match decodeFixed w t with
      | .ok (v, rem) => .ok (v * 256 + b % 256, rem)
      | .error e => .error e := rfl

theorem decodeFixed_encode :
    ∀ (w n : Nat) (rest : Bytes), n < 256 ^ w →
      decodeFixed w (encodeFixed w n ++ rest) = .ok (n, rest) := by
  intro w
  induction w with
  | zero =>
    intro n rest hn
    have : n = 0 := by simpa using hn
    subst this
    simp [encodeFixed, decodeFixed_zero]
  | succ w ih =>
    intro n rest hn
    have hdiv : n / 256 < 256 ^ w := by
      rw [pow_succ, Nat.mul_comm] at hn
      exact Nat.div_lt_of_lt_mul hn
    have hrec := ih (n / 256) rest hdiv
    show decodeFixed (w + 1) (n % 256 :: (encodeFixed w (n / 256) ++ rest)) = _
    rw [decodeFixed_cons, hrec]
    have h1 : n / 256 * 256 + n % 256 % 256 = n := by omega
    simp only [h1]

theorem decodeFixed_length :
    ∀ (w : Nat) (bs : Bytes) (v : Nat) (rest : Bytes),
      decodeFixed w bs = .ok (v, rest) → rest.length ≤ bs.length := by
  intro w
  induction w with
  | zero =>
    intro bs v rest h
    rw [decodeFixed_zero] at h
    cases h
    simp
  | succ w ih =>
    intro bs v rest h
    cases bs with
    | nil => rw [decodeFixed_nil] at h; cases h
    | cons b t =>
      rw [decodeFixed_cons] at h
      rcases hrec : decodeFixed w t with _ | ⟨v1, rem1⟩
      · rw [hrec] at h
        cases h
      · rw [hrec] at h
        simp only [Except.ok.injEq, Prod.mk.injEq] at h
        obtain ⟨-, h2⟩ := h
        subst h2
        have := ih t v1 _ hrec
        simp only [List.length_cons]
        omega

/-! ### Record-level lemmas -/

theorem wireTypeOf_lt (wv : WireValue) : wireTypeOf wv < 8 := by
  cases wv <;> simp [wireTypeOf]

theorem decodeRecord_serialize (n : Nat) (wv : WireValue) (κ : Bytes)
    (h : recordValid n wv = true) :
    decodeRecord (serializeRecord n wv ++ κ) = .ok (n, wv, κ) := by
  have hnv : (1 ≤ n ∧ n < 2 ^ 29) ∧ wireValueValid wv = true := by
    simpa [recordValid] using h
  obtain ⟨⟨hn1, hn2⟩, hwv⟩ := hnv
  have hn0 : ¬ (n = 0) := by omega
  cases wv with
  | varint v =>
      have hv : v < 2 ^ 64 := by simpa [wireValueValid] using hwv
      have htagv : decodeVarint 10
          (encodeVarint (n * 8 + 0) ++ (encodeVarint v ++ κ)) =
          .ok (n * 8 + 0, encodeVarint v ++ κ) :=
        decodeVarint_encode 10 _ _ (by omega) (by norm_num; omega)
      have hvv : decodeVarint 10 (encodeVarint v ++ κ) = .ok (v, κ) :=
        decodeVarint_encode 10 v κ (by omega) (by norm_num; omega)
      simp only [serializeRecord, wireTypeOf, serializeWireValue,
        List.append_assoc, decodeRecord, htagv, hvv,
        show (n * 8 + 0) % 8 = 0 by omega,
        show (n * 8 + 0) / 8 = n by omega, hn0, if_false]
  | i64 v =>
      have hv : v < 2 ^ 64 := by simpa [wireValueValid] using hwv
      have htagv : decodeVarint 10
          (encodeVarint (n * 8 + 1) ++ (encodeFixed 8 v ++ κ)) =
          .ok (n * 8 + 1, encodeFixed 8 v ++ κ) :=
        decodeVarint_encode 10 _ _ (by omega) (by norm_num; omega)
      have hvv : decodeFixed 8 (encodeFixed 8 v ++ κ) = .ok (v, κ) :=
        decodeFixed_encode 8 v κ (by norm_num; omega)
      simp only [serializeRecord, wireTypeOf, serializeWireValue,
        List.append_assoc, decodeRecord, htagv, hvv,
        show (n * 8 + 1) % 8 = 1 by omega,
        show (n * 8 + 1) / 8 = n by omega, hn0, if_false]
  | i32 v =>
      have hv : v < 2 ^ 32 := by simpa [wireValueValid] using hwv
      have htagv : decodeVarint 10
          (encodeVarint (n * 8 + 5) ++ (encodeFixed 4 v ++ κ)) =
          .ok (n * 8 + 5, encodeFixed 4 v ++ κ) :=
        decodeVarint_encode 10 _ _ (by omega) (by norm_num; omega)
      have hvv : decodeFixed 4 (encodeFixed 4 v ++ κ) = .ok (v, κ) :=
        decodeFixed_encode 4 v κ (by norm_num; omega)
      simp only [serializeRecord, wireTypeOf, serializeWireValue,
        List.append_assoc, decodeRecord, htagv, hvv,
        show (n * 8 + 5) % 8 = 5 by omega,
        show (n * 8 + 5) / 8 = n by omega, hn0, if_false]
  | len p =>
      have hv : p.length < 2 ^ 70 := by simpa [wireValueValid] using hwv
      have htagv : decodeVarint 10
          (encodeVarint (n * 8 + 2) ++ (encodeVarint p.length ++ (p ++ κ))) =
          .ok (n * 8 + 2, encodeVarint p.length ++ (p ++ κ)) :=
        decodeVarint_encode 10 _ _ (by omega) (by norm_num; omega)
      have hvv : decodeVarint 10 (encodeVarint p.length ++ (p ++ κ)) =
          .ok (p.length, p ++ κ) :=
        decodeVarint_encode 10 p.length (p ++ κ) (by omega)
          (by norm_num; omega)
      have hle : p.length ≤ (p ++ κ).length := by simp
      simp only [serializeRecord, wireTypeOf, serializeWireValue,
        List.append_assoc, decodeRecord, htagv, hvv,
        show (n * 8 + 2) % 8 = 2 by omega,
        show (n * 8 + 2) / 8 = n by omega, hn0, if_false, hle, dif_pos,
        List.take_left, List.drop_left]

theorem decodeRecord_length (bs : Bytes) (n : Nat) (wv : WireValue)
    (rest : Bytes) (h : decodeRecord bs = .ok (n, wv, rest)) :
    rest.length < bs.length ∧ payloadLen wv < bs.length := by
  rcases hv1 : decodeVarint 10 bs with _ | ⟨tag, r1⟩
  · simp only [decodeRecord, hv1] at h
    cases h
  · simp only [decodeRecord, hv1] at h
    have hr1 : r1.length < bs.length := decodeVarint_length 10 bs tag r1 hv1
    by_cases h0 : tag / 8 = 0
    · rw [if_pos h0] at h; cases h
    · rw [if_neg h0] at h
      have h8 : tag % 8 = 0 ∨ tag % 8 = 1 ∨ tag % 8 = 2 ∨ tag % 8 = 3 ∨
          tag % 8 = 4 ∨ tag % 8 = 5 ∨ tag % 8 = 6 ∨ tag % 8 = 7 := by omega
      rcases h8 with h8 | h8 | h8 | h8 | h8 | h8 | h8 | h8 <;>
        simp only [h8] at h
      · rcases hv2 : decodeVarint 10 r1 with _ | ⟨v, r2⟩
        · simp only [hv2] at h; cases h
        · simp only [hv2] at h
          have hr2 := decodeVarint_length 10 r1 v r2 hv2
          simp only [Except.ok.injEq, Prod.mk.injEq] at h
          obtain ⟨-, h2, h3⟩ := h
          subst h2; subst h3
          exact ⟨by omega, by simp [payloadLen]; omega⟩
      · rcases hv2 : decodeFixed 8 r1 with _ | ⟨v, r2⟩
        · simp only [hv2] at h; cases h
        · simp only [hv2] at h
          have hr2 := decodeFixed_length 8 r1 v r2 hv2
          simp only [Except.ok.injEq, Prod.mk.injEq] at h
          obtain ⟨-, h2, h3⟩ := h
          subst h2; subst h3
          exact ⟨by omega, by simp [payloadLen]; omega⟩
      · rcases hv2 : decodeVarint 10 r1 with _ | ⟨l, r2⟩
        · simp only [hv2] at h; cases h
        · simp only [hv2] at h
          have hr2 := decodeVarint_length 10 r1 l r2 hv2
          by_cases hl : l ≤ r2.length
          · rw [dif_pos hl] at h
            simp only [Except.ok.injEq, Prod.mk.injEq] at h
            obtain ⟨-, h2, h3⟩ := h
            subst h2; subst h3
            constructor
            · simp only [List.length_drop]
              omega
            · simp only [payloadLen, List.length_take]
              omega
          · rw [dif_neg hl] at h; cases h
      · cases h
      · cases h
      · rcases hv2 : decodeFixed 4 r1 with _ | ⟨v, r2⟩
        · simp only [hv2] at h; cases h
        · simp only [hv2] at h
          have hr2 := decodeFixed_length 4 r1 v r2 hv2
          simp only [Except.ok.injEq, Prod.mk.injEq] at h
          obtain ⟨-, h2, h3⟩ := h
          subst h2; subst h3
          exact ⟨by omega, by simp [payloadLen]; omega⟩
      · cases h
      · cases h

/-- A record serialized in front of a tail is captured verbatim by the
take-based unknown-field capture. -/
theorem record_capture (e κ : Bytes) :
    (e ++ κ).take ((e ++ κ).length - κ.length) = e := by
  have : (e ++ κ).length - κ.length = e.length := by
    simp [List.length_append]
  rw [this, List.take_left]

/-! ### Machine-integer lemmas -/

theorem toU64_lt (i : Int) : toU64 i < 2 ^ 64 := by
  unfold toU64
  omega

theorem toI64_toU64 {i : Int} (h1 : -(2 : Int) ^ 63 ≤ i) (h2 : i < 2 ^ 63) :
    toI64 (toU64 i) = i := by
  unfold toI64 toU64
  split <;> omega

theorem toI32_toU64 {i : Int} (h1 : -(2 : Int) ^ 31 ≤ i) (h2 : i < 2 ^ 31) :
    toI32 (toU64 i) = i := by
  unfold toI32 toU64
  split <;> omega

theorem zigzag_lt32 {i : Int} (h1 : -(2 : Int) ^ 31 ≤ i) (h2 : i < 2 ^ 31) :
    zigzag i < 2 ^ 32 := by
  unfold zigzag
  split <;> omega

theorem zigzag_lt64 {i : Int} (h1 : -(2 : Int) ^ 63 ≤ i) (h2 : i < 2 ^ 63) :
    zigzag i < 2 ^ 64 := by
  unfold zigzag
  split <;> omega

theorem unzigzag_zigzag (i : Int) : unzigzag (zigzag i) = i := by
  unfold unzigzag zigzag
  split <;> split <;> omega

/-! ### Scalar round-trip lemmas -/

theorem unzigzag_mod32 {i : Int} (h1 : -(2 : Int) ^ 31 ≤ i)
    (h2 : i < 2 ^ 31) : unzigzag (zigzag i % 2 ^ 32) = i := by
  rw [Nat.mod_eq_of_lt (zigzag_lt32 h1 h2), unzigzag_zigzag]

theorem unzigzag_mod64 {i : Int} (h1 : -(2 : Int) ^ 63 ≤ i)
    (h2 : i < 2 ^ 63) : unzigzag (zigzag i % 2 ^ 64) = i := by
  rw [Nat.mod_eq_of_lt (zigzag_lt64 h1 h2), unzigzag_zigzag]

theorem bool_wire_roundtrip (b : Bool) :
    decodeScalarWire .bool (.varint (if b then 1 else 0)) = .ok (.vbool b) := by
  cases b <;> simp [decodeScalarWire]

theorem scalar_roundtrip (sk : ScalarKind) (v : Value)
    (h : scalarValueValid sk v = true) :
    ∃ wv, encodeScalarWire sk v = some wv ∧ wireValueValid wv = true ∧
      wireTypeOf wv = scalarWireType sk ∧ decodeScalarWire sk wv = .ok v := by
  cases sk <;> cases v <;>
    simp_all [scalarValueValid, encodeScalarWire, wireValueValid, wireTypeOf,
      scalarWireType, decodeScalarWire, toU64_lt, toI32_toU64, toI64_toU64,
      unzigzag_mod32, unzigzag_mod64, Nat.mod_eq_of_lt, bool_wire_roundtrip]
  case string.vstr s => omega
  case bytes.vbytes s => omega
  case bool.vbool b => split <;> norm_num
  case int32.vi32 i => simpa using toU64_lt i
  case int64.vi64 i => simpa using toU64_lt i
  case enum.venum i => simpa using toU64_lt i
  case uint32.vu32 n => omega
  case sint32.vi32 i =>
    refine ⟨by simpa using zigzag_lt64 (i := i) (by omega) (by omega), ?_⟩
    simpa using unzigzag_mod32 (i := i) (by omega) (by omega)
  case sint64.vi64 i =>
    refine ⟨by simpa using zigzag_lt64 (i := i) (by omega) (by omega), ?_⟩
    simpa using unzigzag_mod64 (i := i) (by omega) (by omega)

theorem boolkey_wire_roundtrip (b : Bool) :
    decodeMapKeyWire .bool (.varint (if b then 1 else 0)) = .ok (.kbool b) := by
  cases b <;> simp [decodeMapKeyWire]

theorem mapkey_roundtrip (sk : ScalarKind) (k : MapKey)
    (h : mapKeyValid sk k = true) :
    ∃ wv, encodeMapKeyWire sk k = some wv ∧ wireValueValid wv = true ∧
      wireTypeOf wv = scalarWireType sk ∧ decodeMapKeyWire sk wv = .ok k := by
  cases sk <;> cases k <;>
    simp_all [mapKeyValid, encodeMapKeyWire, wireValueValid, wireTypeOf,
      scalarWireType, decodeMapKeyWire, toU64_lt, toI32_toU64, toI64_toU64,
      unzigzag_mod32, unzigzag_mod64, Nat.mod_eq_of_lt, boolkey_wire_roundtrip]
  case string.kstr s => omega
  case bool.kbool b => split <;> norm_num
  case int32.ki32 i => simpa using toU64_lt i
  case int64.ki64 i => simpa using toU64_lt i
  case uint32.ku32 n => omega
  case sint32.ki32 i =>
    refine ⟨by simpa using zigzag_lt64 (i := i) (by omega) (by omega), ?_⟩
    simpa using unzigzag_mod32 (i := i) (by omega) (by omega)
  case sint64.ki64 i =>
    refine ⟨by simpa using zigzag_lt64 (i := i) (by omega) (by omega), ?_⟩
    simpa using unzigzag_mod64 (i := i) (by omega) (by omega)

/-! ### Prefix-extension lemmas: decoding a record is stable when more bytes
follow the stream (needed to re-decode captured unknown records). -/

theorem decodeVarint_extend :
    ∀ (fuel : Nat) (bs T : Bytes) (v : Nat) (rest : Bytes),
      decodeVarint fuel bs = .ok (v, rest) →
      decodeVarint fuel (bs ++ T) = .ok (v, rest ++ T) := by
  intro fuel
  induction fuel with
  | zero =>
    intro bs T v rest h
    cases bs with
    | nil => rw [decodeVarint_nil] at h; cases h
    | cons b t => rw [decodeVarint_zero] at h; cases h
  | succ f ih =>
    intro bs T v rest h
    cases bs with
    | nil => rw [decodeVarint_nil] at h; cases h
    | cons b t =>
      rw [decodeVarint_cons] at h
      rw [List.cons_append, decodeVarint_cons]
      by_cases hb : b % 256 < 128
      · rw [if_pos hb] at h ⊢
        simp only [Except.ok.injEq, Prod.mk.injEq] at h
        obtain ⟨h1, h2⟩ := h
        subst h1; subst h2
        rfl
      · rw [if_neg hb] at h ⊢
        rcases hrec : decodeVarint f t with _ | ⟨v1, rem1⟩
        · rw [hrec] at h; cases h
        · rw [hrec] at h
          simp only [Except.ok.injEq, Prod.mk.injEq] at h
          obtain ⟨h1, h2⟩ := h
          subst h1; subst h2
          rw [ih t T v1 rem1 hrec]

theorem decodeFixed_extend :
    ∀ (w : Nat) (bs T : Bytes) (v : Nat) (rest : Bytes),
      decodeFixed w bs = .ok (v, rest) →
      decodeFixed w (bs ++ T) = .ok (v, rest ++ T) := by
  intro w
  induction w with
  | zero =>
    intro bs T v rest h
    rw [decodeFixed_zero] at h
    simp only [Except.ok.injEq, Prod.mk.injEq] at h
    obtain ⟨h1, h2⟩ := h
    subst h1; subst h2
    rw [decodeFixed_zero]
  | succ w ih =>
    intro bs T v rest h
    cases bs with
    | nil => rw [decodeFixed_nil] at h; cases h
    | cons b t =>
      rw [decodeFixed_cons] at h
      rw [List.cons_append, decodeFixed_cons]
      rcases hrec : decodeFixed w t with _ | ⟨v1, rem1⟩
      · rw [hrec] at h; cases h
      · rw [hrec] at h
        simp only [Except.ok.injEq, Prod.mk.injEq] at h
        obtain ⟨h1, h2⟩ := h
        subst h1; subst h2
        rw [ih t T v1 rem1 hrec]

theorem decodeRecord_extend (bs T : Bytes) (n : Nat) (wv : WireValue)
    (rest : Bytes) (h : decodeRecord bs = .ok (n, wv, rest)) :
    decodeRecord (bs ++ T) = .ok (n, wv, rest ++ T) := by
  rcases hv1 : decodeVarint 10 bs with _ | ⟨tag, r1⟩
  · simp only [decodeRecord, hv1] at h; cases h
  · simp only [decodeRecord, hv1] at h
    have hv1e := decodeVarint_extend 10 bs T tag r1 hv1
    simp only [decodeRecord, hv1e]
    by_cases h0 : tag / 8 = 0
    · rw [if_pos h0] at h; cases h
    · rw [if_neg h0] at h
      rw [if_neg h0]
      have h8 : tag % 8 = 0 ∨ tag % 8 = 1 ∨ tag % 8 = 2 ∨ tag % 8 = 3 ∨
          tag % 8 = 4 ∨ tag % 8 = 5 ∨ tag % 8 = 6 ∨ tag % 8 = 7 := by omega
      rcases h8 with h8 | h8 | h8 | h8 | h8 | h8 | h8 | h8 <;>
        simp only [h8] at h ⊢
      · rcases hv2 : decodeVarint 10 r1 with _ | ⟨v, r2⟩
        · simp only [hv2] at h; cases h
        · simp only [hv2] at h
          simp only [decodeVarint_extend 10 r1 T v r2 hv2]
          simp only [Except.ok.injEq, Prod.mk.injEq] at h
          obtain ⟨h1, h2, h3⟩ := h
          subst h1; subst h2; subst h3
          rfl
      · rcases hv2 : decodeFixed 8 r1 with _ | ⟨v, r2⟩
        · simp only [hv2] at h; cases h
        · simp only [hv2] at h
          simp only [decodeFixed_extend 8 r1 T v r2 hv2]
          simp only [Except.ok.injEq, Prod.mk.injEq] at h
          obtain ⟨h1, h2, h3⟩ := h
          subst h1; subst h2; subst h3
          rfl
      · rcases hv2 : decodeVarint 10 r1 with _ | ⟨l, r2⟩
        · simp only [hv2] at h; cases h
        · simp only [hv2] at h
          simp only [decodeVarint_extend 10 r1 T l r2 hv2]
          by_cases hl : l ≤ r2.length
          · rw [dif_pos hl] at h
            simp only [Except.ok.injEq, Prod.mk.injEq] at h
            obtain ⟨h1, h2, h3⟩ := h
            subst h1; subst h2; subst h3
            rw [dif_pos (by simp; omega)]
            rw [List.take_append_of_le_length hl,
              List.drop_append_of_le_length hl]
          · rw [dif_neg hl] at h; cases h
      · cases h
      · cases h
      · rcases hv2 : decodeFixed 4 r1 with _ | ⟨v, r2⟩
        · simp only [hv2] at h; cases h
        · simp only [hv2] at h
          simp only [decodeFixed_extend 4 r1 T v r2 hv2]
          simp only [Except.ok.injEq, Prod.mk.injEq] at h
          obtain ⟨h1, h2, h3⟩ := h
          subst h1; subst h2; subst h3
          rfl
      · cases h
      · cases h

/-! ### Small structural lemmas -/

theorem encodeVarint_ne_nil (n : Nat) : encodeVarint n ≠ [] := by
  by_cases h : n < 128
  · rw [encodeVarint_small h]; simp
  · rw [encodeVarint_large h]; simp

theorem serializeRecord_ne_nil (n : Nat) (wv : WireValue) :
    serializeRecord n wv ≠ [] := by
  rw [serializeRecord]
  intro hcontra
  exact encodeVarint_ne_nil _ (List.append_eq_nil.mp hcontra).1

theorem findField_number {desc : MessageDescriptor} {n : Nat}
    {fd : FieldDescriptor} (h : findField desc n = some fd) : fd.number = n := by
  have := List.find?_some h
  simpa using this

theorem getFieldValue_eq_none {l : List (Nat × Value)} {n : Nat}
    (h : n ∉ l.map Prod.fst) (u : List Bytes) :
    getFieldValue (.mk l u) n = none := by
  induction l with
  | nil => rfl
  | cons e rest ih =>
    have hne : e.1 ≠ n := by
      intro hc
      exact h (by simp [← hc])
    have hrest : n ∉ rest.map Prod.fst := by
      intro hc
      exact h (by simp [hc])
    simp only [getFieldValue, DynamicMessage.fields, List.findSome?_cons] at *
    rw [if_neg hne]
    exact ih hrest

theorem replaceOrAppend_absent {l : List (Nat × Value)} {n : Nat}
    (h : n ∉ l.map Prod.fst) (v : Value) :
    replaceOrAppend l n v = l ++ [(n, v)] := by
  induction l with
  | nil => rfl
  | cons e rest ih =>
    have hne : e.1 ≠ n := by
      intro hc
      exact h (by simp [← hc])
    have hrest : n ∉ rest.map Prod.fst := by
      intro hc
      exact h (by simp [hc])
    cases e with
    | mk n' v' =>
      simp only [replaceOrAppend, if_neg hne, List.cons_append,
        List.cons.injEq, true_and]
      exact ih hrest

theorem insertPair_absent {l : List (MapKey × Value)} {k : MapKey}
    (h : k ∉ l.map Prod.fst) (v : Value) :
    insertPair l k v = l ++ [(k, v)] := by
  induction l with
  | nil => rfl
  | cons e rest ih =>
    have hne : e.1 ≠ k := by
      intro hc
      exact h (by simp [← hc])
    have hrest : k ∉ rest.map Prod.fst := by
      intro hc
      exact h (by simp [hc])
    cases e with
    | mk k' v' =>
      simp only [insertPair, if_neg hne, List.cons_append, List.cons.injEq,
        true_and]
      exact ih hrest

theorem getFieldValue_append_last {F : List (Nat × Value)} {n : Nat}
    (h : n ∉ F.map Prod.fst) (w : Value) (u : List Bytes) :
    getFieldValue (.mk (F ++ [(n, w)]) u) n = some w := by
  induction F with
  | nil => simp [getFieldValue, DynamicMessage.fields, List.findSome?_cons]
  | cons e rest ih =>
    have hne : e.1 ≠ n := by
      intro hc
      exact h (by simp [← hc])
    have hrest : n ∉ rest.map Prod.fst := by
      intro hc
      exact h (by simp [hc])
    simp only [getFieldValue, DynamicMessage.fields, List.cons_append,
      List.findSome?_cons] at *
    rw [if_neg hne]
    exact ih hrest

theorem replaceOrAppend_append_last {F : List (Nat × Value)} {n : Nat}
    (h : n ∉ F.map Prod.fst) (w v : Value) :
    replaceOrAppend (F ++ [(n, w)]) n v = F ++ [(n, v)] := by
  induction F with
  | nil => simp [replaceOrAppend]
  | cons e rest ih =>
    have hne : e.1 ≠ n := by
      intro hc
      exact h (by simp [← hc])
    have hrest : n ∉ rest.map Prod.fst := by
      intro hc
      exact h (by simp [hc])
    cases e with
    | mk n' v' =>
      simp only [List.cons_append, replaceOrAppend, if_neg hne,
        List.cons.injEq, true_and]
      exact ih hrest

theorem decodeMessage_nil (pool : DescriptorPool) (desc : MessageDescriptor)
    (acc : DynamicMessage) : decodeMessage pool desc acc [] = .ok acc := by
  rw [decodeMessage, if_pos rfl]

theorem decodeMapEntry_nil (pool : DescriptorPool) (kk : ScalarKind)
    (vf : FieldDescriptor) (acc : MapKey × Value) :
    decodeMapEntry pool kk vf acc [] = .ok acc := by
  rw [decodeMapEntry, if_pos rfl]

/-! ### One-record step lemmas for the decode loop -/

theorem decodeMessage_unknown_step (pool : DescriptorPool)
    (desc : MessageDescriptor) (acc : DynamicMessage) (raw T : Bytes)
    (n : Nat) (wv : WireValue) (h : decodeRecord raw = .ok (n, wv, []))
    (hfd : findField desc n = none) :
    decodeMessage pool desc acc (raw ++ T) =
      decodeMessage pool desc (appendUnknown acc raw) T := by
  have hrecE : decodeRecord (raw ++ T) = .ok (n, wv, T) := by
    simpa using decodeRecord_extend raw T n wv [] h
  have hlen := decodeRecord_length (raw ++ T) n wv T hrecE
  have hraw0 : 0 < raw.length := by
    have := (decodeRecord_length raw n wv [] h).1
    simpa using this
  rw [decodeMessage,
    if_neg (by
      intro hc
      rcases List.append_eq_nil.mp hc with ⟨h1, -⟩
      rw [h1] at hraw0
      simp at hraw0)]
  simp only [hrecE]
  rw [dif_pos hlen.1]
  simp only [hfd, record_capture]

theorem decodeMessage_scalar_singular_step (pool : DescriptorPool)
    (desc : MessageDescriptor) (acc : DynamicMessage) (n : Nat)
    (sk : ScalarKind) (wv : WireValue) (x : Value) (T : Bytes)
    (fd : FieldDescriptor) (hrv : recordValid n wv = true)
    (hfd : findField desc n = some fd) (hmap : fd.is_map = false)
    (hkind : fd.kind = .scalar sk)
    (hcard : fd.cardinality = .singular ∨ fd.cardinality = .optional)
    (hdec : decodeScalarWire sk wv = .ok x) :
    decodeMessage pool desc acc (serializeRecord n wv ++ T) =
      decodeMessage pool desc (setFieldRaw acc n x) T := by
  have hrec := decodeRecord_serialize n wv T hrv
  have hlen := decodeRecord_length _ n wv T hrec
  rw [decodeMessage,
    if_neg (by
      intro hc
      exact serializeRecord_ne_nil n wv (List.append_eq_nil.mp hc).1)]
  simp only [hrec]
  rw [dif_pos hlen.1]
  simp only [hfd, hmap, Bool.false_eq_true, if_false, hkind]
  rcases hcard with hcard | hcard <;> simp only [hcard, hdec]

theorem decodeMapEntry_key_step (pool : DescriptorPool) (kk : ScalarKind)
    (vf : FieldDescriptor) (acc : MapKey × Value) (wv : WireValue)
    (k : MapKey) (T : Bytes) (hrv : recordValid 1 wv = true)
    (hdec : decodeMapKeyWire kk wv = .ok k) :
    decodeMapEntry pool kk vf acc (serializeRecord 1 wv ++ T) =
      decodeMapEntry pool kk vf (k, acc.2) T := by
  have hrec := decodeRecord_serialize 1 wv T hrv
  have hlen := decodeRecord_length _ 1 wv T hrec
  rw [decodeMapEntry,
    if_neg (by
      intro hc
      exact serializeRecord_ne_nil 1 wv (List.append_eq_nil.mp hc).1)]
  simp only [hrec]
  rw [dif_pos hlen.1]
  simp only [hdec, if_true]

theorem decodeMessage_message_singular_step (pool : DescriptorPool)
    (desc : MessageDescriptor) (acc : DynamicMessage) (n : Nat)
    (tid : TypeId) (payload T : Bytes) (fd : FieldDescriptor)
    (subdesc : MessageDescriptor) (sub : DynamicMessage)
    (hrv : recordValid n (.len payload) = true)
    (hfd : findField desc n = some fd) (hmap : fd.is_map = false)
    (hkind : fd.kind = .message tid)
    (hcard : fd.cardinality = .singular ∨ fd.cardinality = .optional)
    (hsub : pool.types[tid]? = some subdesc)
    (hsubdec : decodeMessage pool subdesc emptyMessage payload = .ok sub) :
    decodeMessage pool desc acc (serializeRecord n (.len payload) ++ T) =
      decodeMessage pool desc (setFieldRaw acc n (.vmsg sub)) T := by
  have hrec := decodeRecord_serialize n (.len payload) T hrv
  have hlen := decodeRecord_length _ n (.len payload) T hrec
  have hpl : payload.length < (serializeRecord n (.len payload) ++ T).length := by
    simpa [payloadLen] using hlen.2
  rw [decodeMessage,
    if_neg (by
      intro hc
      exact serializeRecord_ne_nil n _ (List.append_eq_nil.mp hc).1)]
  simp only [hrec]
  rw [dif_pos hlen.1]
  simp only [hfd, hmap, Bool.false_eq_true, if_false, hkind]
  rcases hcard with hcard | hcard <;>
    · simp only [hcard, hsub]
      rw [dif_pos hpl]
      simp only [hsubdec]

theorem decodeMessage_scalar_repeated_step (pool : DescriptorPool)
    (desc : MessageDescriptor) (acc : DynamicMessage) (n : Nat)
    (sk : ScalarKind) (wv : WireValue) (x : Value) (T : Bytes)
    (fd : FieldDescriptor) (hrv : recordValid n wv = true)
    (hfd : findField desc n = some fd) (hmap : fd.is_map = false)
    (hkind : fd.kind = .scalar sk) (hcard : fd.cardinality = .repeated)
    (hwt : wireTypeOf wv = scalarWireType sk)
    (hdec : decodeScalarWire sk wv = .ok x) :
    decodeMessage pool desc acc (serializeRecord n wv ++ T) =
      decodeMessage pool desc (appendElems acc n [x]) T := by
  have hrec := decodeRecord_serialize n wv T hrv
  have hlen := decodeRecord_length _ n wv T hrec
  rw [decodeMessage,
    if_neg (by
      intro hc
      exact serializeRecord_ne_nil n wv (List.append_eq_nil.mp hc).1)]
  simp only [hrec]
  rw [dif_pos hlen.1]
  simp only [hfd, hmap, Bool.false_eq_true, if_false, hkind, hcard]
  cases wv with
  | len p =>
      have hpack : packable sk = false := by
        simp only [wireTypeOf] at hwt
        simp [packable, ← hwt]
      simp only [hpack, Bool.false_eq_true, if_false, hdec]
  | varint v => simp only [hdec]
  | i64 v => simp only [hdec]
  | i32 v => simp only [hdec]

theorem decodeMessage_message_repeated_step (pool : DescriptorPool)
    (desc : MessageDescriptor) (acc : DynamicMessage) (n : Nat)
    (tid : TypeId) (payload T : Bytes) (fd : FieldDescriptor)
    (subdesc : MessageDescriptor) (sub : DynamicMessage)
    (hrv : recordValid n (.len payload) = true)
    (hfd : findField desc n = some fd) (hmap : fd.is_map = false)
    (hkind : fd.kind = .message tid) (hcard : fd.cardinality = .repeated)
    (hsub : pool.types[tid]? = some subdesc)
    (hsubdec : decodeMessage pool subdesc emptyMessage payload = .ok sub) :
    decodeMessage pool desc acc (serializeRecord n (.len payload) ++ T) =
      decodeMessage pool desc (appendElems acc n [.vmsg sub]) T := by
  have hrec := decodeRecord_serialize n (.len payload) T hrv
  have hlen := decodeRecord_length _ n (.len payload) T hrec
  have hpl : payload.length < (serializeRecord n (.len payload) ++ T).length := by
    simpa [payloadLen] using hlen.2
  rw [decodeMessage,
    if_neg (by
      intro hc
      exact serializeRecord_ne_nil n _ (List.append_eq_nil.mp hc).1)]
  simp only [hrec]
  rw [dif_pos hlen.1]
  simp only [hfd, hmap, Bool.false_eq_true, if_false, hkind, hcard, hsub]
  rw [dif_pos hpl]
  simp only [hsubdec]

theorem decodeMessage_map_step (pool : DescriptorPool)
    (desc : MessageDescriptor) (acc : DynamicMessage) (n : Nat)
    (payload T : Bytes) (fd : FieldDescriptor) (kk : ScalarKind)
    (vf : FieldDescriptor) (k : MapKey) (ev : Value)
    (hrv : recordValid n (.len payload) = true)
    (hfd : findField desc n = some fd) (hmap : fd.is_map = true)
    (hinfo : mapEntryInfo pool fd = some (kk, vf))
    (hentry : decodeMapEntry pool kk vf (mapKeyDefault kk, fieldDefault vf)
      payload = .ok (k, ev)) :
    decodeMessage pool desc acc (serializeRecord n (.len payload) ++ T) =
      decodeMessage pool desc (insertMapEntry acc n k ev) T := by
  have hrec := decodeRecord_serialize n (.len payload) T hrv
  have hlen := decodeRecord_length _ n (.len payload) T hrec
  have hpl : payload.length < (serializeRecord n (.len payload) ++ T).length := by
    simpa [payloadLen] using hlen.2
  rw [decodeMessage,
    if_neg (by
      intro hc
      exact serializeRecord_ne_nil n _ (List.append_eq_nil.mp hc).1)]
  simp only [hrec]
  rw [dif_pos hlen.1]
  simp only [hfd, hmap, if_true, hinfo]
  rw [dif_pos hpl]
  simp only [hentry]

theorem decodeMapEntry_value_scalar_step (pool : DescriptorPool)
    (kk : ScalarKind) (vf : FieldDescriptor) (acc : MapKey × Value)
    (sk : ScalarKind) (wv : WireValue) (v : Value) (T : Bytes)
    (hrv : recordValid 2 wv = true) (hkind : vf.kind = .scalar sk)
    (hdec : decodeScalarWire sk wv = .ok v) :
    decodeMapEntry pool kk vf acc (serializeRecord 2 wv ++ T) =
      decodeMapEntry pool kk vf (acc.1, v) T := by
  have hrec := decodeRecord_serialize 2 wv T hrv
  have hlen := decodeRecord_length _ 2 wv T hrec
  rw [decodeMapEntry,
    if_neg (by
      intro hc
      exact serializeRecord_ne_nil 2 wv (List.append_eq_nil.mp hc).1)]
  simp only [hrec]
  rw [dif_pos hlen.1]
  simp only [show ¬ ((2 : Nat) = 1) by omega, if_false, if_true, hkind, hdec]

theorem decodeMapEntry_value_message_step (pool : DescriptorPool)
    (kk : ScalarKind) (vf : FieldDescriptor) (acc : MapKey × Value)
    (tid : TypeId) (payload T : Bytes) (subdesc : MessageDescriptor)
    (sub : DynamicMessage) (hrv : recordValid 2 (.len payload) = true)
    (hkind : vf.kind = .message tid) (hsub : pool.types[tid]? = some subdesc)
    (hsubdec : decodeMessage pool subdesc emptyMessage payload = .ok sub) :
    decodeMapEntry pool kk vf acc (serializeRecord 2 (.len payload) ++ T) =
      decodeMapEntry pool kk vf (acc.1, .vmsg sub) T := by
  have hrec := decodeRecord_serialize 2 (.len payload) T hrv
  have hlen := decodeRecord_length _ 2 (.len payload) T hrec
  have hpl : payload.length <
      (serializeRecord 2 (.len payload) ++ T).length := by
    simpa [payloadLen] using hlen.2
  rw [decodeMapEntry,
    if_neg (by
      intro hc
      exact serializeRecord_ne_nil 2 _ (List.append_eq_nil.mp hc).1)]
  simp only [hrec]
  rw [dif_pos hlen.1]
  simp only [show ¬ ((2 : Nat) = 1) by omega, if_false, if_true, hkind, hsub]
  rw [dif_pos hpl]
  simp only [hsubdec]

/-! ### Encoding-length bounds (entry payloads must stay decodable) -/

theorem encodeFixed_length (w n : Nat) : (encodeFixed w n).length = w := by
  induction w generalizing n with
  | zero => rfl
  | succ w ih => simp [encodeFixed, ih]

theorem encodeVarint_length_le :
    ∀ (k n : Nat), 0 < k → n < 128 ^ k → (encodeVarint n).length ≤ k := by
  intro k
  induction k with
  | zero => intro n h; omega
  | succ k ih =>
    intro n _ hn
    by_cases h : n < 128
    · rw [encodeVarint_small h]; simp
    · rw [encodeVarint_large h]
      have hdiv : n / 128 < 128 ^ k := by
        rw [pow_succ, Nat.mul_comm] at hn
        exact Nat.div_lt_of_lt_mul hn
      have hk : 0 < k := by
        rcases Nat.eq_zero_or_pos k with h0 | h0
        · subst h0; simp at hdiv; omega
        · exact h0
      have := ih (n / 128) hk hdiv
      simp only [List.length_cons]
      omega

theorem serializeRecord_length_le (n : Nat) (wv : WireValue)
    (hn : n < 2 ^ 29) (hwv : wireValueValid wv = true) :
    (serializeRecord n wv).length ≤ 20 + payloadLen wv := by
  have htagb : (encodeVarint (n * 8 + wireTypeOf wv)).length ≤ 10 := by
    refine encodeVarint_length_le 10 _ (by omega) ?_
    have := wireTypeOf_lt wv
    norm_num
    omega
  rw [serializeRecord]
  simp only [List.length_append]
  cases wv with
  | varint v =>
      have hv : v < 2 ^ 64 := by simpa [wireValueValid] using hwv
      have : (encodeVarint v).length ≤ 10 := by
        refine encodeVarint_length_le 10 _ (by omega) ?_
        norm_num
        omega
      simp only [serializeWireValue, payloadLen]
      omega
  | i64 v =>
      simp only [serializeWireValue, payloadLen, encodeFixed_length]
      omega
  | i32 v =>
      simp only [serializeWireValue, payloadLen, encodeFixed_length]
      omega
  | len p =>
      have hv : p.length < 2 ^ 70 := by simpa [wireValueValid] using hwv
      have : (encodeVarint p.length).length ≤ 10 := by
        refine encodeVarint_length_le 10 _ (by omega) ?_
        norm_num
        omega
      simp only [serializeWireValue, payloadLen, List.length_append]
      omega

/-! ### Height unfolding lemmas -/

theorem msgHeight_mk (F : List (Nat × Value)) (u : List Bytes) :
    msgHeight (.mk F u) = fieldsHeight F + 1 := by
  rw [msgHeight]

theorem fieldsHeight_cons (e : Nat × Value) (rest : List (Nat × Value)) :
    fieldsHeight (e :: rest) = max (valueHeight e.2) (fieldsHeight rest) := by
  cases e
  rw [fieldsHeight]

theorem valueHeight_vmsg (m : DynamicMessage) :
    valueHeight (.vmsg m) = msgHeight m := by
  rw [valueHeight]

theorem valueHeight_vlist (xs : List Value) :
    valueHeight (.vlist xs) = elemsHeight xs := by
  rw [valueHeight]

theorem valueHeight_vmap (es : List (MapKey × Value)) :
    valueHeight (.vmap es) = pairsHeight es := by
  rw [valueHeight]

theorem elemsHeight_cons (x : Value) (xs : List Value) :
    elemsHeight (x :: xs) = max (valueHeight x) (elemsHeight xs) := by
  rw [elemsHeight]

theorem pairsHeight_cons (e : MapKey × Value)
    (rest : List (MapKey × Value)) :
    pairsHeight (e :: rest) = max (valueHeight e.2) (pairsHeight rest) := by
  cases e
  rw [pairsHeight]

/-! ### Accumulator normal forms -/

theorem setFieldRaw_absent {F : List (Nat × Value)} {n : Nat}
    (h : n ∉ F.map Prod.fst) (u : List Bytes) (v : Value) :
    setFieldRaw (.mk F u) n v = .mk (F ++ [(n, v)]) u := by
  simp only [setFieldRaw, DynamicMessage.fields, DynamicMessage.unknown,
    replaceOrAppend_absent h]

theorem setFieldRaw_last {F : List (Nat × Value)} {n : Nat}
    (h : n ∉ F.map Prod.fst) (u : List Bytes) (w v : Value) :
    setFieldRaw (.mk (F ++ [(n, w)]) u) n v = .mk (F ++ [(n, v)]) u := by
  simp only [setFieldRaw, DynamicMessage.fields, DynamicMessage.unknown,
    replaceOrAppend_append_last h]

theorem appendElems_absent {F : List (Nat × Value)} {n : Nat}
    (h : n ∉ F.map Prod.fst) (u : List Bytes) (xs : List Value) :
    appendElems (.mk F u) n xs = .mk (F ++ [(n, .vlist xs)]) u := by
  rw [appendElems, getFieldValue_eq_none h]
  exact setFieldRaw_absent h u _

theorem appendElems_last {F : List (Nat × Value)} {n : Nat}
    (h : n ∉ F.map Prod.fst) (u : List Bytes) (ys xs : List Value) :
    appendElems (.mk (F ++ [(n, .vlist ys)]) u) n xs =
      .mk (F ++ [(n, .vlist (ys ++ xs))]) u := by
  rw [appendElems, getFieldValue_append_last h]
  exact setFieldRaw_last h u _ _

theorem insertMapEntry_absent {F : List (Nat × Value)} {n : Nat}
    (h : n ∉ F.map Prod.fst) (u : List Bytes) (k : MapKey) (ev : Value) :
    insertMapEntry (.mk F u) n k ev = .mk (F ++ [(n, .vmap [(k, ev)])]) u := by
  rw [insertMapEntry, getFieldValue_eq_none h]
  exact setFieldRaw_absent h u _

theorem insertMapEntry_last {F : List (Nat × Value)} {n : Nat}
    (h : n ∉ F.map Prod.fst) (u : List Bytes)
    (es : List (MapKey × Value)) (k : MapKey) (ev : Value) :
    insertMapEntry (.mk (F ++ [(n, .vmap es)]) u) n k ev =
      .mk (F ++ [(n, .vmap (insertPair es k ev))]) u := by
  rw [insertMapEntry, getFieldValue_append_last h]
  exact setFieldRaw_last h u _ _

/-! ### Validity unfolding lemmas -/

theorem validMessage_mk (pool : DescriptorPool) (desc : MessageDescriptor)
    (F : List (Nat × Value)) (u : List Bytes) :
    validMessage pool desc (.mk F u) =
      (validFields pool desc F && decide ((F.map Prod.fst).Nodup) &&
        u.all (isWfUnknown desc)) := by
  rw [validMessage]

theorem validFields_nil (pool : DescriptorPool) (desc : MessageDescriptor) :
    validFields pool desc [] = true := by
  rw [validFields]

theorem validFields_cons (pool : DescriptorPool) (desc : MessageDescriptor)
    (n : Nat) (v : Value) (rest : List (Nat × Value)) :
    validFields pool desc ((n, v) :: rest) =
      (decide (1 ≤ n ∧ n < 2 ^ 29) &&
        (match findField desc n with
         | some fd => validFieldValue pool fd v
         | none => false) &&
        validFields pool desc rest) := by
  rw [validFields]

theorem validElems_nil (pool : DescriptorPool) (k : Kind) :
    validElems pool k [] = true := by
  rw [validElems]

theorem validElems_cons (pool : DescriptorPool) (k : Kind) (x : Value)
    (xs : List Value) :
    validElems pool k (x :: xs) =
      (validSingle pool k x && validElems pool k xs) := by
  rw [validElems]

theorem validPairs_nil (pool : DescriptorPool) (kk : ScalarKind)
    (vf : FieldDescriptor) : validPairs pool kk vf [] = true := by
  rw [validPairs]

theorem validPairs_cons (pool : DescriptorPool) (kk : ScalarKind)
    (vf : FieldDescriptor) (k : MapKey) (ev : Value)
    (rest : List (MapKey × Value)) :
    validPairs pool kk vf ((k, ev) :: rest) =
      (mapKeyValid kk k && validSingle pool vf.kind ev &&
        validPairs pool kk vf rest) := by
  rw [validPairs]

theorem validSingle_scalar (pool : DescriptorPool) (sk : ScalarKind)
    (v : Value) : validSingle pool (.scalar sk) v = scalarValueValid sk v := by
  rw [validSingle]

theorem validSingle_message (pool : DescriptorPool) (tid : TypeId)
    (sub : DynamicMessage) :
    validSingle pool (.message tid) (.vmsg sub) =
      (match pool.types[tid]? with
       | some subdesc =>
           validMessage pool subdesc sub &&
           decide ((encodeMessage pool subdesc sub).length < 2 ^ 64)
       | none => false) := by
  rw [validSingle]

/-! ### Payload-size corollaries -/

theorem encodeScalarWire_payload {sk : ScalarKind} {v : Value}
    {wv : WireValue} (hv : scalarValueValid sk v = true)
    (henc : encodeScalarWire sk v = some wv) : payloadLen wv < 2 ^ 64 := by
  cases sk <;> cases v <;>
    simp_all [encodeScalarWire, scalarValueValid, payloadLen] <;>
    simp [← henc, payloadLen] <;> omega

theorem encodeMapKeyWire_payload {kk : ScalarKind} {k : MapKey}
    {wv : WireValue} (hk : mapKeyValid kk k = true)
    (henc : encodeMapKeyWire kk k = some wv) : payloadLen wv < 2 ^ 64 := by
  cases kk <;> cases k <;>
    simp_all [encodeMapKeyWire, mapKeyValid, payloadLen] <;>
    simp [← henc, payloadLen] <;> omega

/-! ### Encoder unfolding lemmas -/

theorem encodeMessage_mk (pool : DescriptorPool) (desc : MessageDescriptor)
    (F : List (Nat × Value)) (u : List Bytes) :
    encodeMessage pool desc (.mk F u) =
      encodeFields pool desc F ++ u.flatten := by
  rw [encodeMessage]

theorem encodeFields_nil (pool : DescriptorPool) (desc : MessageDescriptor) :
    encodeFields pool desc [] = [] := by
  rw [encodeFields]

theorem encodeFields_cons (pool : DescriptorPool) (desc : MessageDescriptor)
    (n : Nat) (v : Value) (rest : List (Nat × Value)) :
    encodeFields pool desc ((n, v) :: rest) =
      (match findField desc n with
       | some fd => encodeFieldValue pool fd v
       | none => []) ++ encodeFields pool desc rest := by
  rw [encodeFields]

theorem encodeElems_nil (pool : DescriptorPool) (fd : FieldDescriptor) :
    encodeElems pool fd [] = [] := by
  rw [encodeElems]

theorem encodeElems_cons (pool : DescriptorPool) (fd : FieldDescriptor)
    (x : Value) (xs : List Value) :
    encodeElems pool fd (x :: xs) =
      encodeSingleField pool fd x ++ encodeElems pool fd xs := by
  rw [encodeElems]

theorem encodeMapEntries_nil (pool : DescriptorPool) (num : Nat)
    (kk : ScalarKind) (vf : FieldDescriptor) :
    encodeMapEntries pool num kk vf [] = [] := by
  rw [encodeMapEntries]

theorem encodeMapEntries_cons (pool : DescriptorPool) (num : Nat)
    (kk : ScalarKind) (vf : FieldDescriptor) (k : MapKey) (ev : Value)
    (rest : List (MapKey × Value)) :
    encodeMapEntries pool num kk vf ((k, ev) :: rest) =
      serializeRecord num (.len
        ((match encodeMapKeyWire kk k with
          | some wv => serializeRecord 1 wv
          | none => []) ++ encodeSingleField pool vf ev)) ++
      encodeMapEntries pool num kk vf rest := by
  rw [encodeMapEntries]

theorem encodeFieldValue_map (pool : DescriptorPool) (fd : FieldDescriptor)
    (entries : List (MapKey × Value)) (kk : ScalarKind)
    (vf : FieldDescriptor) (hmap : fd.is_map = true)
    (hinfo : mapEntryInfo pool fd = some (kk, vf)) :
    encodeFieldValue pool fd (.vmap entries) =
      encodeMapEntries pool fd.number kk vf entries := by
  rw [encodeFieldValue, if_pos hmap]
  simp only [hinfo]

theorem encodeFieldValue_repeated (pool : DescriptorPool)
    (fd : FieldDescriptor) (xs : List Value) (hmap : fd.is_map = false)
    (hcard : fd.cardinality = .repeated) :
    encodeFieldValue pool fd (.vlist xs) = encodeElems pool fd xs := by
  rw [encodeFieldValue, if_neg (by simp [hmap])]
  simp only [hcard]

theorem encodeFieldValue_singular (pool : DescriptorPool)
    (fd : FieldDescriptor) (v : Value) (hmap : fd.is_map = false)
    (hcard : fd.cardinality = .singular ∨ fd.cardinality = .optional) :
    encodeFieldValue pool fd v = encodeSingleField pool fd v := by
  rw [encodeFieldValue.eq_def]
  rcases hcard with hcard | hcard <;> simp [hmap, hcard]

theorem encodeSingleField_scalar (pool : DescriptorPool)
    (fd : FieldDescriptor) (v : Value) (sk : ScalarKind) (wv : WireValue)
    (hk : fd.kind = .scalar sk) (henc : encodeScalarWire sk v = some wv) :
    encodeSingleField pool fd v = serializeRecord fd.number wv := by
  rw [encodeSingleField, hk]
  simp only [henc]

theorem encodeSingleField_message (pool : DescriptorPool)
    (fd : FieldDescriptor) (sub : DynamicMessage) (tid : TypeId)
    (subdesc : MessageDescriptor) (hk : fd.kind = .message tid)
    (hsub : pool.types[tid]? = some subdesc) :
    encodeSingleField pool fd (.vmsg sub) =
      serializeRecord fd.number (.len (encodeMessage pool subdesc sub)) := by
  rw [encodeSingleField, hk]
  simp only [hsub]

theorem encodeSingleField_length (pool : DescriptorPool)
    (vf : FieldDescriptor) (ev : Value) (hn : vf.number < 2 ^ 29)
    (hval : validSingle pool vf.kind ev = true) :
    (encodeSingleField pool vf ev).length ≤ 20 + 2 ^ 64 := by
  cases hk : vf.kind with
  | scalar sk =>
      rw [hk, validSingle_scalar] at hval
      rcases scalar_roundtrip sk ev hval with ⟨wv, henc, hwv, -, -⟩
      rw [encodeSingleField_scalar pool vf ev sk wv hk henc]
      have h1 := serializeRecord_length_le vf.number wv hn hwv
      have h2 := encodeScalarWire_payload hval henc
      omega
  | message tid =>
      rw [hk] at hval
      cases ev
      case vmsg sub =>
        rw [validSingle_message] at hval
        rcases hsub : pool.types[tid]? with _ | subdesc
        · rw [hsub] at hval; cases hval
        · rw [hsub] at hval
          have hval2 : validMessage pool subdesc sub = true ∧
              (encodeMessage pool subdesc sub).length < 2 ^ 64 := by
            simpa using hval
          have hlen := hval2.2
          rw [encodeSingleField_message pool vf sub tid subdesc hk hsub]
          have h1 : wireValueValid (.len (encodeMessage pool subdesc sub))
              = true := by
            simp [wireValueValid]
            omega
          have h2 := serializeRecord_length_le vf.number
            (.len (encodeMessage pool subdesc sub)) hn h1
          simp only [payloadLen] at h2
          omega
      all_goals (rw [validSingle.eq_def] at hval; simp at hval)

/-! ### Field-level round-trip lemmas, parameterized by the nesting induction
hypothesis -/

theorem decode_single_step (pool : DescriptorPool) (desc : MessageDescriptor)
    (hb : Nat)
    (hypIH : ∀ (sub : DynamicMessage) (subdesc : MessageDescriptor),
      msgHeight sub ≤ hb → validMessage pool subdesc sub = true →
      decodeMessage pool subdesc emptyMessage
        (encodeMessage pool subdesc sub) = .ok sub)
    (fd : FieldDescriptor) (n : Nat) (acc : DynamicMessage) (x : Value)
    (T : Bytes) (hfd : findField desc n = some fd) (hmap : fd.is_map = false)
    (hcard : fd.cardinality = .singular ∨ fd.cardinality = .optional)
    (hrange : 1 ≤ n ∧ n < 2 ^ 29)
    (hval : validSingle pool fd.kind x = true) (hh : valueHeight x ≤ hb) :
    decodeMessage pool desc acc (encodeSingleField pool fd x ++ T) =
      decodeMessage pool desc (setFieldRaw acc n x) T := by
  have hnum := findField_number hfd
  cases hk : fd.kind with
  | scalar sk =>
      rw [hk, validSingle_scalar] at hval
      rcases scalar_roundtrip sk x hval with ⟨wv, henc, hwv, hwt, hdec⟩
      rw [encodeSingleField_scalar pool fd x sk wv hk henc, hnum]
      exact decodeMessage_scalar_singular_step pool desc acc n sk wv x T fd
        (by simp [recordValid, hwv]; omega) hfd hmap hk hcard hdec
  | message tid =>
      rw [hk] at hval
      cases x
      case vmsg sub =>
        rw [validSingle_message] at hval
        rcases hsub : pool.types[tid]? with _ | subdesc
        · rw [hsub] at hval; cases hval
        · rw [hsub] at hval
          have hval2 : validMessage pool subdesc sub = true ∧
              (encodeMessage pool subdesc sub).length < 2 ^ 64 := by
            simpa using hval
          have hsubh : msgHeight sub ≤ hb := by
            rw [valueHeight_vmsg] at hh
            exact hh
          have hsubdec := hypIH sub subdesc hsubh hval2.1
          rw [encodeSingleField_message pool fd sub tid subdesc hk hsub, hnum]
          refine decodeMessage_message_singular_step pool desc acc n tid
            (encodeMessage pool subdesc sub) T fd subdesc sub ?_ hfd hmap hk
            hcard hsub hsubdec
          have := hval2.2
          simp [recordValid, wireValueValid]
          omega
      all_goals (rw [validSingle.eq_def] at hval; simp at hval)

theorem decode_elem_step (pool : DescriptorPool) (desc : MessageDescriptor)
    (hb : Nat)
    (hypIH : ∀ (sub : DynamicMessage) (subdesc : MessageDescriptor),
      msgHeight sub ≤ hb → validMessage pool subdesc sub = true →
      decodeMessage pool subdesc emptyMessage
        (encodeMessage pool subdesc sub) = .ok sub)
    (fd : FieldDescriptor) (n : Nat) (acc : DynamicMessage) (x : Value)
    (T : Bytes) (hfd : findField desc n = some fd) (hmap : fd.is_map = false)
    (hcard : fd.cardinality = .repeated) (hrange : 1 ≤ n ∧ n < 2 ^ 29)
    (hval : validSingle pool fd.kind x = true) (hh : valueHeight x ≤ hb) :
    decodeMessage pool desc acc (encodeSingleField pool fd x ++ T) =
      decodeMessage pool desc (appendElems acc n [x]) T := by
  have hnum := findField_number hfd
  cases hk : fd.kind with
  | scalar sk =>
      rw [hk, validSingle_scalar] at hval
      rcases scalar_roundtrip sk x hval with ⟨wv, henc, hwv, hwt, hdec⟩
      rw [encodeSingleField_scalar pool fd x sk wv hk henc, hnum]
      exact decodeMessage_scalar_repeated_step pool desc acc n sk wv x T fd
        (by simp [recordValid, hwv]; omega) hfd hmap hk hcard hwt hdec
  | message tid =>
      rw [hk] at hval
      cases x
      case vmsg sub =>
        rw [validSingle_message] at hval
        rcases hsub : pool.types[tid]? with _ | subdesc
        · rw [hsub] at hval; cases hval
        · rw [hsub] at hval
          have hval2 : validMessage pool subdesc sub = true ∧
              (encodeMessage pool subdesc sub).length < 2 ^ 64 := by
            simpa using hval
          have hsubh : msgHeight sub ≤ hb := by
            rw [valueHeight_vmsg] at hh
            exact hh
          have hsubdec := hypIH sub subdesc hsubh hval2.1
          rw [encodeSingleField_message pool fd sub tid subdesc hk hsub, hnum]
          refine decodeMessage_message_repeated_step pool desc acc n tid
            (encodeMessage pool subdesc sub) T fd subdesc sub ?_ hfd hmap hk
            hcard hsub hsubdec
          have := hval2.2
          simp [recordValid, wireValueValid]
          omega
      all_goals (rw [validSingle.eq_def] at hval; simp at hval)

theorem decode_elems_loop (pool : DescriptorPool) (desc : MessageDescriptor)
    (hb : Nat)
    (hypIH : ∀ (sub : DynamicMessage) (subdesc : MessageDescriptor),
      msgHeight sub ≤ hb → validMessage pool subdesc sub = true →
      decodeMessage pool subdesc emptyMessage
        (encodeMessage pool subdesc sub) = .ok sub)
    (fd : FieldDescriptor) (n : Nat) (hfd : findField desc n = some fd)
    (hmap : fd.is_map = false) (hcard : fd.cardinality = .repeated)
    (hrange : 1 ≤ n ∧ n < 2 ^ 29) :
    ∀ (xs : List Value) (F : List (Nat × Value)) (u : List Bytes)
      (ys : List Value) (T : Bytes),
      validElems pool fd.kind xs = true → elemsHeight xs ≤ hb →
      n ∉ F.map Prod.fst →
      decodeMessage pool desc (.mk (F ++ [(n, .vlist ys)]) u)
          (encodeElems pool fd xs ++ T) =
        decodeMessage pool desc (.mk (F ++ [(n, .vlist (ys ++ xs))]) u) T := by
  intro xs
  induction xs with
  | nil =>
      intro F u ys T _ _ _
      rw [encodeElems_nil, List.nil_append, List.append_nil]
  | cons x xs ih =>
      intro F u ys T hval hh hF
      rw [validElems_cons, Bool.and_eq_true] at hval
      rw [elemsHeight_cons] at hh
      rw [encodeElems_cons, List.append_assoc]
      rw [decode_elem_step pool desc hb hypIH fd n _ x _ hfd hmap hcard
        hrange hval.1 (by omega)]
      rw [appendElems_last hF]
      rw [ih F u (ys ++ [x]) T hval.2 (by omega) hF]
      rw [List.append_assoc]
      rfl

theorem decode_entry_roundtrip (pool : DescriptorPool) (hb : Nat)
    (hypIH : ∀ (sub : DynamicMessage) (subdesc : MessageDescriptor),
      msgHeight sub ≤ hb → validMessage pool subdesc sub = true →
      decodeMessage pool subdesc emptyMessage
        (encodeMessage pool subdesc sub) = .ok sub)
    (kk : ScalarKind) (vf : FieldDescriptor) (k : MapKey) (ev : Value)
    (hvf2 : vf.number = 2) (hkval : mapKeyValid kk k = true)
    (hvval : validSingle pool vf.kind ev = true) (hh : valueHeight ev ≤ hb) :
    decodeMapEntry pool kk vf (mapKeyDefault kk, fieldDefault vf)
      ((match encodeMapKeyWire kk k with
        | some wv => serializeRecord 1 wv
        | none => []) ++ encodeSingleField pool vf ev) = .ok (k, ev) := by
  rcases mapkey_roundtrip kk k hkval with ⟨kwv, hek, hkwv, -, hdk⟩
  simp only [hek]
  rw [decodeMapEntry_key_step pool kk vf _ kwv k _
    (by simp [recordValid, hkwv]) hdk]
  cases hkd : vf.kind with
  | scalar sk =>
      rw [hkd, validSingle_scalar] at hvval
      rcases scalar_roundtrip sk ev hvval with ⟨wv, henc, hwv, -, hdec⟩
      rw [encodeSingleField_scalar pool vf ev sk wv hkd henc, hvf2,
        ← List.append_nil (serializeRecord 2 wv)]
      rw [decodeMapEntry_value_scalar_step pool kk vf _ sk wv ev []
        (by simp [recordValid, hwv]) hkd hdec]
      rw [decodeMapEntry_nil]
  | message tid =>
      rw [hkd] at hvval
      cases ev
      case vmsg sub =>
        rw [validSingle_message] at hvval
        rcases hsub : pool.types[tid]? with _ | subdesc
        · rw [hsub] at hvval; cases hvval
        · rw [hsub] at hvval
          have hval2 : validMessage pool subdesc sub = true ∧
              (encodeMessage pool subdesc sub).length < 2 ^ 64 := by
            simpa using hvval
          have hsubh : msgHeight sub ≤ hb := by
            rw [valueHeight_vmsg] at hh
            exact hh
          have hsubdec := hypIH sub subdesc hsubh hval2.1
          rw [encodeSingleField_message pool vf sub tid subdesc hkd hsub,
            hvf2,
            ← List.append_nil
              (serializeRecord 2 (.len (encodeMessage pool subdesc sub)))]
          rw [decodeMapEntry_value_message_step pool kk vf _ tid
            (encodeMessage pool subdesc sub) [] subdesc sub
            (by
              have := hval2.2
              simp [recordValid, wireValueValid]
              omega) hkd hsub hsubdec]
          rw [decodeMapEntry_nil]
      all_goals (rw [validSingle.eq_def] at hvval; simp at hvval)

theorem decode_entries_loop (pool : DescriptorPool)
    (desc : MessageDescriptor) (hb : Nat)
    (hypIH : ∀ (sub : DynamicMessage) (subdesc : MessageDescriptor),
      msgHeight sub ≤ hb → validMessage pool subdesc sub = true →
      decodeMessage pool subdesc emptyMessage
        (encodeMessage pool subdesc sub) = .ok sub)
    (fd : FieldDescriptor) (n : Nat) (kk : ScalarKind)
    (vf : FieldDescriptor) (hfd : findField desc n = some fd)
    (hmap : fd.is_map = true) (hinfo : mapEntryInfo pool fd = some (kk, vf))
    (hvf2 : vf.number = 2) (hrange : 1 ≤ n ∧ n < 2 ^ 29) :
    ∀ (es : List (MapKey × Value)) (F : List (Nat × Value)) (u : List Bytes)
      (done : List (MapKey × Value)) (T : Bytes),
      validPairs pool kk vf es = true → pairsHeight es ≤ hb →
      n ∉ F.map Prod.fst →
      (∀ k ∈ es.map Prod.fst, k ∉ done.map Prod.fst) →
      (es.map Prod.fst).Nodup →
      decodeMessage pool desc (.mk (F ++ [(n, .vmap done)]) u)
          (encodeMapEntries pool n kk vf es ++ T) =
        decodeMessage pool desc (.mk (F ++ [(n, .vmap (done ++ es))]) u) T := by
  intro es
  induction es with
  | nil =>
      intro F u done T _ _ _ _ _
      rw [encodeMapEntries_nil, List.nil_append, List.append_nil]
  | cons e rest ih =>
      obtain ⟨k, ev⟩ := e
      intro F u done T hval hh hF hdisj hnodup
      rw [validPairs_cons, Bool.and_eq_true, Bool.and_eq_true] at hval
      obtain ⟨⟨hkval, hvval⟩, hrest⟩ := hval
      rw [pairsHeight_cons] at hh
      rcases mapkey_roundtrip kk k hkval with ⟨kwv, hek, hkwv, -, hdk⟩
      have hentry := decode_entry_roundtrip pool hb hypIH kk vf k ev hvf2
        hkval hvval (by simp at hh; omega)
      have hkeylen : (serializeRecord 1 kwv).length ≤ 20 + payloadLen kwv :=
        serializeRecord_length_le 1 kwv (by omega) hkwv
      have hkeypl : payloadLen kwv < 2 ^ 64 := encodeMapKeyWire_payload hkval hek
      have hvlen : (encodeSingleField pool vf ev).length ≤ 20 + 2 ^ 64 :=
        encodeSingleField_length pool vf ev (by rw [hvf2]; omega) hvval
      have hrv : recordValid n (.len
          ((match encodeMapKeyWire kk k with
            | some wv => serializeRecord 1 wv
            | none => []) ++ encodeSingleField pool vf ev)) = true := by
        simp only [hek]
        simp [recordValid, wireValueValid]
        refine ⟨⟨hrange.1, hrange.2⟩, ?_⟩
        omega
      rw [encodeMapEntries_cons, List.append_assoc]
      rw [decodeMessage_map_step pool desc _ n _ _ fd kk vf k ev hrv hfd
        hmap hinfo (by simpa only [hek] using hentry)]
      rw [insertMapEntry_last hF]
      rw [List.map_cons] at hnodup
      obtain ⟨hknotin, hnodup2⟩ := List.nodup_cons.mp hnodup
      have hkdone : k ∉ done.map Prod.fst := by
        refine hdisj k ?_
        simp
      rw [insertPair_absent hkdone]
      have hdisj2 : ∀ k2 ∈ rest.map Prod.fst,
          k2 ∉ (done ++ [(k, ev)]).map Prod.fst := by
        intro k2 hk2
        simp only [List.map_append, List.mem_append]
        rintro (hc | hc)
        · refine hdisj k2 ?_ hc
          rw [List.map_cons]
          exact List.mem_cons_of_mem _ hk2
        · simp at hc
          subst hc
          exact hknotin hk2
      rw [ih F u (done ++ [(k, ev)]) T hrest (by simp at hh; omega) hF
        hdisj2 hnodup2]
      rw [List.append_assoc]
      rfl

theorem validFieldValue_map_elim {pool : DescriptorPool}
    {fd : FieldDescriptor} {v : Value} (hm : fd.is_map = true)
    (h : validFieldValue pool fd v = true) :
    ∃ entries kk vf, v = .vmap entries ∧
      mapEntryInfo pool fd = some (kk, vf) ∧ isMapKeyKind kk = true ∧
      vf.number = 2 ∧ entries ≠ [] ∧ (entries.map Prod.fst).Nodup ∧
      validPairs pool kk vf entries = true := by
  rw [validFieldValue.eq_def, if_pos hm] at h
  rcases hinfo : mapEntryInfo pool fd with _ | ⟨kk, vf⟩ <;> rw [hinfo] at h
  · cases v <;> exact Bool.noConfusion h
  · cases v <;> try exact Bool.noConfusion h
    next entries =>
      simp only [Bool.and_eq_true, Bool.not_eq_true',
        decide_eq_true_eq] at h
      obtain ⟨⟨⟨⟨⟨hkk, hvf2⟩, hvfmap⟩, hne⟩, hnd⟩, hvp⟩ := h
      refine ⟨entries, kk, vf, rfl, rfl, hkk, hvf2, ?_, hnd, hvp⟩
      intro hc
      subst hc
      simp at hne

theorem validFieldValue_repeated_elim {pool : DescriptorPool}
    {fd : FieldDescriptor} {v : Value} (hm : fd.is_map = false)
    (hc : fd.cardinality = .repeated) (h : validFieldValue pool fd v = true) :
    ∃ xs, v = .vlist xs ∧ xs ≠ [] ∧ validElems pool fd.kind xs = true := by
  rw [validFieldValue.eq_def, if_neg (by simp [hm])] at h
  simp only [hc] at h
  cases v <;> try exact Bool.noConfusion h
  next xs =>
    simp only [Bool.and_eq_true, Bool.not_eq_true'] at h
    refine ⟨xs, rfl, ?_, h.2⟩
    intro hcon
    subst hcon
    simp at h

theorem validFieldValue_singular_elim {pool : DescriptorPool}
    {fd : FieldDescriptor} {v : Value} (hm : fd.is_map = false)
    (hc : fd.cardinality = .singular ∨ fd.cardinality = .optional)
    (h : validFieldValue pool fd v = true) :
    validSingle pool fd.kind v = true := by
  rw [validFieldValue.eq_def, if_neg (by simp [hm])] at h
  rcases hc with hc | hc <;> simp only [hc] at h <;> exact h

theorem decode_elems_full (pool : DescriptorPool) (desc : MessageDescriptor)
    (hb : Nat)
    (hypIH : ∀ (sub : DynamicMessage) (subdesc : MessageDescriptor),
      msgHeight sub ≤ hb → validMessage pool subdesc sub = true →
      decodeMessage pool subdesc emptyMessage
        (encodeMessage pool subdesc sub) = .ok sub)
    (fd : FieldDescriptor) (n : Nat) (hfd : findField desc n = some fd)
    (hmap : fd.is_map = false) (hcard : fd.cardinality = .repeated)
    (hrange : 1 ≤ n ∧ n < 2 ^ 29) (xs : List Value)
    (F : List (Nat × Value)) (u : List Bytes) (T : Bytes) (hne : xs ≠ [])
    (hval : validElems pool fd.kind xs = true) (hh : elemsHeight xs ≤ hb)
    (hF : n ∉ F.map Prod.fst) :
    decodeMessage pool desc (.mk F u) (encodeElems pool fd xs ++ T) =
      decodeMessage pool desc (.mk (F ++ [(n, .vlist xs)]) u) T := by
  cases xs with
  | nil => cases hne rfl
  | cons x xrest =>
      rw [validElems_cons, Bool.and_eq_true] at hval
      rw [elemsHeight_cons] at hh
      rw [encodeElems_cons, List.append_assoc]
      rw [decode_elem_step pool desc hb hypIH fd n _ x _ hfd hmap hcard
        hrange hval.1 (by omega)]
      rw [appendElems_absent hF]
      rw [decode_elems_loop pool desc hb hypIH fd n hfd hmap hcard hrange
        xrest F u [x] T hval.2 (by omega) hF]
      rfl

theorem decode_entries_full (pool : DescriptorPool)
    (desc : MessageDescriptor) (hb : Nat)
    (hypIH : ∀ (sub : DynamicMessage) (subdesc : MessageDescriptor),
      msgHeight sub ≤ hb → validMessage pool subdesc sub = true →
      decodeMessage pool subdesc emptyMessage
        (encodeMessage pool subdesc sub) = .ok sub)
    (fd : FieldDescriptor) (n : Nat) (kk : ScalarKind)
    (vf : FieldDescriptor) (hfd : findField desc n = some fd)
    (hmap : fd.is_map = true) (hinfo : mapEntryInfo pool fd = some (kk, vf))
    (hvf2 : vf.number = 2) (hrange : 1 ≤ n ∧ n < 2 ^ 29)
    (es : List (MapKey × Value)) (F : List (Nat × Value)) (u : List Bytes)
    (T : Bytes) (hne : es ≠ [])
    (hval : validPairs pool kk vf es = true) (hh : pairsHeight es ≤ hb)
    (hnodup : (es.map Prod.fst).Nodup) (hF : n ∉ F.map Prod.fst) :
    decodeMessage pool desc (.mk F u) (encodeMapEntries pool n kk vf es ++ T) =
      decodeMessage pool desc (.mk (F ++ [(n, .vmap es)]) u) T := by
  cases es with
  | nil => cases hne rfl
  | cons e erest =>
      obtain ⟨k, ev⟩ := e
      rw [validPairs_cons, Bool.and_eq_true, Bool.and_eq_true] at hval
      obtain ⟨⟨hkval, hvval⟩, hrest⟩ := hval
      rw [pairsHeight_cons] at hh
      rcases mapkey_roundtrip kk k hkval with ⟨kwv, hek, hkwv, -, hdk⟩
      have hentry := decode_entry_roundtrip pool hb hypIH kk vf k ev hvf2
        hkval hvval (by simp at hh; omega)
      have hkeylen : (serializeRecord 1 kwv).length ≤ 20 + payloadLen kwv :=
        serializeRecord_length_le 1 kwv (by omega) hkwv
      have hkeypl : payloadLen kwv < 2 ^ 64 :=
        encodeMapKeyWire_payload hkval hek
      have hvlen : (encodeSingleField pool vf ev).length ≤ 20 + 2 ^ 64 :=
        encodeSingleField_length pool vf ev (by rw [hvf2]; omega) hvval
      have hrv : recordValid n (.len
          ((match encodeMapKeyWire kk k with
            | some wv => serializeRecord 1 wv
            | none => []) ++ encodeSingleField pool vf ev)) = true := by
        simp only [hek]
        simp [recordValid, wireValueValid]
        refine ⟨⟨hrange.1, hrange.2⟩, ?_⟩
        omega
      rw [encodeMapEntries_cons, List.append_assoc]
      rw [decodeMessage_map_step pool desc _ n _ _ fd kk vf k ev hrv hfd
        hmap hinfo (by simpa only [hek] using hentry)]
      rw [insertMapEntry_absent hF]
      rw [List.map_cons] at hnodup
      obtain ⟨hknotin, hnodup2⟩ := List.nodup_cons.mp hnodup
      have hdisj2 : ∀ k2 ∈ erest.map Prod.fst,
          k2 ∉ ([(k, ev)] : List (MapKey × Value)).map Prod.fst := by
        intro k2 hk2
        simp only [List.map_cons, List.map_nil, List.mem_singleton]
        intro hc
        subst hc
        exact hknotin hk2
      rw [decode_entries_loop pool desc hb hypIH fd n kk vf hfd hmap hinfo
        hvf2 hrange erest F u [(k, ev)] T hrest (by simp at hh; omega) hF
        hdisj2 hnodup2]
      rfl

theorem decode_fields_loop (pool : DescriptorPool)
    (desc : MessageDescriptor) (hb : Nat)
    (hypIH : ∀ (sub : DynamicMessage) (subdesc : MessageDescriptor),
      msgHeight sub ≤ hb → validMessage pool subdesc sub = true →
      decodeMessage pool subdesc emptyMessage
        (encodeMessage pool subdesc sub) = .ok sub) :
    ∀ (fs F : List (Nat × Value)) (u : List Bytes) (T : Bytes),
      validFields pool desc fs = true →
      fieldsHeight fs ≤ hb →
      (F.map Prod.fst ++ fs.map Prod.fst).Nodup →
      decodeMessage pool desc (.mk F u) (encodeFields pool desc fs ++ T) =
        decodeMessage pool desc (.mk (F ++ fs) u) T := by
  intro fs
  induction fs with
  | nil =>
      intro F u T _ _ _
      rw [encodeFields_nil, List.nil_append, List.append_nil]
  | cons e rest ih =>
      obtain ⟨n, v⟩ := e
      intro F u T hval hh hnodup
      rw [validFields_cons, Bool.and_eq_true, Bool.and_eq_true] at hval
      obtain ⟨⟨hrange', hfv⟩, hrest⟩ := hval
      have hrange : 1 ≤ n ∧ n < 2 ^ 29 := by simpa using hrange'
      rcases hfd : findField desc n with _ | fd
      · rw [hfd] at hfv; cases hfv
      · rw [hfd] at hfv
        have hnum := findField_number hfd
        rw [fieldsHeight_cons] at hh
        have hFn : n ∉ F.map Prod.fst := by
          intro hc
          exact (List.disjoint_of_nodup_append hnodup) hc (by simp)
        have hnodup2 :
            ((F ++ [(n, v)]).map Prod.fst ++ rest.map Prod.fst).Nodup := by
          simpa [List.append_assoc] using hnodup
        have hhv : valueHeight v ≤ hb := by simp at hh; omega
        have hhrest : fieldsHeight rest ≤ hb := by simp at hh; omega
        rw [encodeFields_cons]
        simp only [hfd]
        rw [List.append_assoc]
        by_cases hm : fd.is_map = true
        · rcases validFieldValue_map_elim hm hfv with
            ⟨entries, kk, vf, rfl, hinfo, hkk, hvf2, hne, hnd, hvp⟩
          rw [encodeFieldValue_map pool fd entries kk vf hm hinfo, hnum]
          rw [decode_entries_full pool desc hb hypIH fd n kk vf hfd hm hinfo
            hvf2 hrange entries F u _ hne hvp
            (by rw [valueHeight_vmap] at hhv; exact hhv) hnd hFn]
          refine (ih (F ++ [(n, .vmap entries)]) u T hrest hhrest
            hnodup2).trans ?_
          rw [List.append_assoc, List.singleton_append]
        · have hm' : fd.is_map = false := by
            revert hm
            cases fd.is_map <;> simp
          rcases hcr : fd.cardinality with _ | _ | _
          · have hsv := validFieldValue_singular_elim hm' (Or.inl hcr) hfv
            rw [encodeFieldValue_singular pool fd v hm' (Or.inl hcr)]
            rw [decode_single_step pool desc hb hypIH fd n _ v _ hfd hm'
              (Or.inl hcr) hrange hsv hhv]
            rw [setFieldRaw_absent hFn]
            refine (ih (F ++ [(n, v)]) u T hrest hhrest hnodup2).trans ?_
            rw [List.append_assoc, List.singleton_append]
          · have hsv := validFieldValue_singular_elim hm' (Or.inr hcr) hfv
            rw [encodeFieldValue_singular pool fd v hm' (Or.inr hcr)]
            rw [decode_single_step pool desc hb hypIH fd n _ v _ hfd hm'
              (Or.inr hcr) hrange hsv hhv]
            rw [setFieldRaw_absent hFn]
            refine (ih (F ++ [(n, v)]) u T hrest hhrest hnodup2).trans ?_
            rw [List.append_assoc, List.singleton_append]
          · rcases validFieldValue_repeated_elim hm' hcr hfv with
              ⟨xs, rfl, hne, hve⟩
            rw [encodeFieldValue_repeated pool fd xs hm' hcr]
            rw [decode_elems_full pool desc hb hypIH fd n hfd hm' hcr hrange
              xs F u _ hne hve
              (by rw [valueHeight_vlist] at hhv; exact hhv) hFn]
            refine (ih (F ++ [(n, .vlist xs)]) u T hrest hhrest
              hnodup2).trans ?_
            rw [List.append_assoc, List.singleton_append]

theorem decode_unknown_loop (pool : DescriptorPool)
    (desc : MessageDescriptor) :
    ∀ (us : List Bytes) (F : List (Nat × Value)) (u : List Bytes),
      us.all (isWfUnknown desc) = true →
      decodeMessage pool desc (.mk F u) us.flatten = .ok (.mk F (u ++ us)) := by
  intro us
  induction us with
  | nil =>
      intro F u _
      simp only [List.flatten_nil, decodeMessage_nil, List.append_nil]
  | cons raw us ih =>
      intro F u hall
      rw [List.all_cons, Bool.and_eq_true] at hall
      obtain ⟨hraw, hrest⟩ := hall
      rw [isWfUnknown] at hraw
      rcases hdr : decodeRecord raw with _ | ⟨n, wv, rest⟩
      · rw [hdr] at hraw; cases hraw
      · rw [hdr] at hraw
        rw [Bool.and_eq_true] at hraw
        have hrestnil : rest = [] := by
          have := hraw.1
          simpa [List.isEmpty_iff] using this
        have hfdnone : findField desc n = none := by
          have := hraw.2
          simpa [Option.isNone_iff_eq_none] using this
        subst hrestnil
        rw [List.flatten_cons]
        rw [decodeMessage_unknown_step pool desc (.mk F u) raw us.flatten n
          wv hdr hfdnone]
        have happ : appendUnknown (.mk F u) raw = .mk F (u ++ [raw]) := rfl
        rw [happ, ih F (u ++ [raw]) hrest, List.append_assoc]
        rfl

/-- The complete wire round-trip, by strong induction on nesting height. -/
theorem decode_encode_height :
    ∀ (hb : Nat) (pool : DescriptorPool) (m : DynamicMessage)
      (desc : MessageDescriptor), msgHeight m ≤ hb →
      validMessage pool desc m = true →
      decodeMessage pool desc emptyMessage (encodeMessage pool desc m) =
        .ok m := by
  intro hb
  induction hb with
  | zero =>
      intro pool m desc hh _
      cases m with
      | mk F u => rw [msgHeight_mk] at hh; omega
  | succ hb ih =>
      intro pool m desc hh hval
      cases m with
      | mk F u =>
        rw [validMessage_mk, Bool.and_eq_true, Bool.and_eq_true] at hval
        obtain ⟨⟨hvf, hnd⟩, hwf⟩ := hval
        rw [msgHeight_mk] at hh
        rw [encodeMessage_mk]
        have hnodup : (([] : List (Nat × Value)).map Prod.fst ++
            F.map Prod.fst).Nodup := by
          simpa using of_decide_eq_true hnd
        have hloop := decode_fields_loop pool desc hb
          (fun sub subdesc h1 h2 => ih pool sub subdesc h1 h2) F [] []
          u.flatten hvf (by omega) hnodup
        rw [show emptyMessage = DynamicMessage.mk [] [] from rfl, hloop]
        rw [List.nil_append]
        rw [decode_unknown_loop pool desc u F [] hwf]
        rw [List.nil_append]

/-! ### Oneof exclusivity -/

theorem has_field_iff (l : List (Nat × Value)) (u : List Bytes) (x : Nat) :
    has_field (.mk l u) x = true ↔ ∃ e ∈ l, e.1 = x := by
  induction l with
  | nil => simp [has_field, getFieldValue, DynamicMessage.fields]
  | cons e rest ih =>
      by_cases he : e.1 = x
      · constructor
        · intro _
          exact ⟨e, List.mem_cons_self _ _, he⟩
        · intro _
          simp only [has_field, getFieldValue, DynamicMessage.fields,
            List.findSome?_cons, if_pos he, Option.isSome_some]
      · simp only [has_field, getFieldValue, DynamicMessage.fields,
          List.findSome?_cons, if_neg he] at ih ⊢
        rw [ih]
        constructor
        · intro h
          obtain ⟨f, hf, hfx⟩ := h
          exact ⟨f, List.mem_cons_of_mem e hf, hfx⟩
        · intro h
          obtain ⟨f, hf, hfx⟩ := h
          rcases List.mem_cons.mp hf with hfe | hfr
          · subst hfe; exact absurd hfx he
          · exact ⟨f, hfr, hfx⟩

theorem mem_replaceOrAppend (l : List (Nat × Value)) (n : Nat) (v : Value)
    (e : Nat × Value) (he : e ∈ replaceOrAppend l n v) : e.1 = n ∨ e ∈ l := by
  induction l with
  | nil =>
      rw [replaceOrAppend] at he
      rcases List.mem_singleton.mp he with h
      subst h; exact Or.inl rfl
  | cons p rest ih =>
      obtain ⟨n', v'⟩ := p
      rw [replaceOrAppend] at he
      by_cases hp : n' = n
      · rw [if_pos hp] at he
        rcases List.mem_cons.mp he with h | h
        · subst h; exact Or.inl rfl
        · exact Or.inr (List.mem_cons_of_mem _ h)
      · rw [if_neg hp] at he
        rcases List.mem_cons.mp he with h | h
        · subst h; exact Or.inr (List.mem_cons_self _ _)
        · rcases ih h with h1 | h1
          · exact Or.inl h1
          · exact Or.inr (List.mem_cons_of_mem _ h1)

theorem exists_mem_replaceOrAppend (l : List (Nat × Value)) (n : Nat)
    (v : Value) : ∃ e ∈ replaceOrAppend l n v, e.1 = n := by
  induction l with
  | nil => exact ⟨(n, v), by rw [replaceOrAppend]; exact List.mem_singleton.mpr rfl, rfl⟩
  | cons p rest ih =>
      obtain ⟨n', v'⟩ := p
      rw [replaceOrAppend]
      by_cases hp : n' = n
      · rw [if_pos hp]
        exact ⟨(n, v), List.mem_cons_self _ _, rfl⟩
      · rw [if_neg hp]
        obtain ⟨e, he, hex⟩ := ih
        exact ⟨e, List.mem_cons_of_mem _ he, hex⟩

theorem mem_oneofSiblings (desc : MessageDescriptor) (fd g : FieldDescriptor)
    (hg : g ∈ desc.fields) (hoi : g.oneof_index = fd.oneof_index)
    (hsome : fd.oneof_index ≠ none) (hne : g.number ≠ fd.number) :
    g.number ∈ oneofSiblings desc fd := by
  rcases ho : fd.oneof_index with _ | oi
  · exact absurd ho hsome
  · rw [oneofSiblings, ho]
    refine List.mem_map.mpr ⟨g, List.mem_filter.mpr ⟨hg, ?_⟩, rfl⟩
    simp [hoi, ho, hne]

theorem has_field_setFieldShape (desc : MessageDescriptor)
    (m : DynamicMessage) (fd : FieldDescriptor) (v : Value) (x : Nat)
    (h : has_field (.mk (replaceOrAppend
        (clearFieldNums m.fields (oneofSiblings desc fd)) fd.number v)
        m.unknown) x = true) :
    x = fd.number ∨
      (has_field m x = true ∧ x ∉ oneofSiblings desc fd) := by
  obtain ⟨e, he, hex⟩ := (has_field_iff _ _ _).mp h
  rcases mem_replaceOrAppend _ _ _ e he with h1 | h1
  · exact Or.inl (hex ▸ h1.symm ▸ rfl)
  · have h2 := List.mem_filter.mp h1
    refine Or.inr ⟨?_, ?_⟩
    · cases m with
      | mk fl un => exact (has_field_iff fl un x).mpr ⟨e, h2.1, hex⟩
    · intro hx
      have := h2.2
      rw [hex] at this
      simp [hx] at this

theorem set_field_shape (desc : MessageDescriptor) (m : DynamicMessage)
    (fd : FieldDescriptor) (v : Value) (m' : DynamicMessage)
    (hset : set_field desc m fd v = .ok m') :
    m' = .mk (replaceOrAppend
      (clearFieldNums m.fields (oneofSiblings desc fd)) fd.number v)
      m.unknown := by
  rw [set_field] at hset
  by_cases hvk : valueKindMatches fd v = true
  · rw [if_pos hvk] at hset
    injection hset with h
    exact h.symm
  · rw [if_neg hvk] at hset
    exact Except.noConfusion hset

/-- C5: oneof exclusivity of the dynamic field setter.  (i) Setting a oneof
member clears every previously set sibling of the same oneof: after a
successful `set_field` of `fd`, any other member of `fd`'s oneof reads as
absent.  (ii) `set_field` preserves the at-most-one-member invariant
`oneofExclusive` (for a descriptor with no duplicate field numbers).
(iii) Setting one member and then a second member of the same oneof leaves
only the second present: the first reads as absent. -/
theorem c5_oneof_exclusivity (desc : MessageDescriptor) :
    (∀ (m : DynamicMessage) (fd : FieldDescriptor) (v : Value)
      (m' : DynamicMessage) (g : FieldDescriptor),
      set_field desc m fd v = .ok m' → g ∈ desc.fields →
      g.oneof_index = fd.oneof_index → fd.oneof_index ≠ none →
      g.number ≠ fd.number → has_field m' g.number = false) ∧
    (∀ (m : DynamicMessage) (fd : FieldDescriptor) (v : Value)
      (m' : DynamicMessage),
      (desc.fields.map FieldDescriptor.number).Nodup → fd ∈ desc.fields →
      oneofExclusive desc m → set_field desc m fd v = .ok m' →
      oneofExclusive desc m') ∧
    (∀ (m0 : DynamicMessage) (fd3 fd5 : FieldDescriptor) (v3 v5 : Value)
      (m1 m2 : DynamicMessage),
      fd3 ∈ desc.fields → fd3.oneof_index = fd5.oneof_index →
      fd5.oneof_index ≠ none → fd3.number ≠ fd5.number →
      set_field desc m0 fd3 v3 = .ok m1 → set_field desc m1 fd5 v5 = .ok m2 →
      has_field m2 fd5.number = true ∧ has_field m2 fd3.number = false) := by
  have hclear : ∀ (m : DynamicMessage) (fd : FieldDescriptor) (v : Value)
      (m' : DynamicMessage) (g : FieldDescriptor),
      set_field desc m fd v = .ok m' → g ∈ desc.fields →
      g.oneof_index = fd.oneof_index → fd.oneof_index ≠ none →
      g.number ≠ fd.number → has_field m' g.number = false := by
    intro m fd v m' g hset hg hoi hsome hne
    have hshape := set_field_shape desc m fd v m' hset
    subst hshape
    cases hf : has_field (.mk (replaceOrAppend
        (clearFieldNums m.fields (oneofSiblings desc fd)) fd.number v)
        m.unknown) g.number
    · rfl
    · rcases has_field_setFieldShape desc m fd v g.number hf with h1 | h1
      · exact absurd h1 hne
      · exact absurd (mem_oneofSiblings desc fd g hg hoi hsome hne) h1.2
  refine ⟨hclear, ?_, ?_⟩
  · intro m fd v m' hnd hfdmem hex hset
    have hshape := set_field_shape desc m fd v m' hset
    subst hshape
    intro g1 hg1 g2 hg2 hoi hsome h1 h2
    have hinj := List.inj_on_of_nodup_map hnd
    have hsome2 : g2.oneof_index ≠ none := hoi ▸ hsome
    rcases has_field_setFieldShape desc m fd v g1.number h1 with c1 | c1 <;>
      rcases has_field_setFieldShape desc m fd v g2.number h2 with c2 | c2
    · exact c1.trans c2.symm
    · have hg1fd : g1 = fd := hinj hg1 hfdmem c1
      by_cases hne : g2.number = fd.number
      · exact c1.trans hne.symm
      · exact absurd (mem_oneofSiblings desc fd g2 hg2
          (hoi.symm.trans (hg1fd ▸ rfl)) (hg1fd ▸ hsome) hne) c2.2
    · have hg2fd : g2 = fd := hinj hg2 hfdmem c2
      by_cases hne : g1.number = fd.number
      · exact hne.trans c2.symm
      · exact absurd (mem_oneofSiblings desc fd g1 hg1
          (hoi.trans (hg2fd ▸ rfl)) (hg2fd ▸ hsome2) hne) c1.2
    · exact hex g1 hg1 g2 hg2 hoi hsome c1.1 c2.1
  · intro m0 fd3 fd5 v3 v5 m1 m2 h3mem hoi hsome hne hset1 hset2
    constructor
    · have hshape := set_field_shape desc m1 fd5 v5 m2 hset2
      subst hshape
      obtain ⟨e, he, hex⟩ := exists_mem_replaceOrAppend
        (clearFieldNums m1.fields (oneofSiblings desc fd5)) fd5.number v5
      exact (has_field_iff _ _ _).mpr ⟨e, he, hex⟩
    · exact hclear m1 fd5 v5 m2 fd3 hset2 h3mem hoi hsome hne

theorem c5_oneof_exclusivity_witness :
    has_field (DynamicMessage.mk [(5, Value.vstr [97])] []) 5 = true ∧
    has_field (DynamicMessage.mk [(5, Value.vstr [97])] []) 3 = false ∧
    oneofExclusive mainDesc (DynamicMessage.mk [(5, Value.vstr [97])] []) := by
  have h := c5_oneof_exclusivity mainDesc
  have hset1 : set_field mainDesc emptyMessage
      ⟨3, .scalar .uint64, .optional, false, some 0⟩ (.vu64 7) =
      .ok (DynamicMessage.mk [(3, Value.vu64 7)] []) := rfl
  have hset2 : set_field mainDesc (DynamicMessage.mk [(3, Value.vu64 7)] [])
      ⟨5, .scalar .string, .optional, false, some 0⟩ (.vstr [97]) =
      .ok (DynamicMessage.mk [(5, Value.vstr [97])] []) := rfl
  have h3 := h.2.2 emptyMessage
    ⟨3, .scalar .uint64, .optional, false, some 0⟩
    ⟨5, .scalar .string, .optional, false, some 0⟩
    (.vu64 7) (.vstr [97])
    (DynamicMessage.mk [(3, Value.vu64 7)] [])
    (DynamicMessage.mk [(5, Value.vstr [97])] [])
    (by decide) rfl (by decide) (by decide) hset1 hset2
  have hinv := h.2.1 (DynamicMessage.mk [(3, Value.vu64 7)] [])
    ⟨5, .scalar .string, .optional, false, some 0⟩ (.vstr [97])
    (DynamicMessage.mk [(5, Value.vstr [97])] [])
    (by decide) (by decide) (by decide) hset2
  exact ⟨h3.1, h3.2, hinv⟩

theorem serializeRecords_eq_flatten (rs : List (Nat × WireValue)) :
    serializeRecords rs =
      (rs.map fun r => serializeRecord r.1 r.2).flatten := by
  induction rs with
  | nil => rfl
  | cons r rest ih =>
      cases r with
      | mk n wv => simp [serializeRecords, ih]

/-- C6: decoding a byte string made of well-formed records whose field
numbers the target descriptor does not declare succeeds, stores each
record's raw bytes (tag and payload) verbatim in the unknown-field side
table, and re-encoding the resulting message reproduces the input bytes
byte-identically. -/
theorem c6_unknown_preserved (pool : DescriptorPool)
    (desc : MessageDescriptor) (rs : List (Nat × WireValue))
    (hwf : ∀ r ∈ rs, recordValid r.1 r.2 = true)
    (hund : ∀ r ∈ rs, findField desc r.1 = none) :
    decode pool desc (serializeRecords rs) =
      .ok (DynamicMessage.mk [] (rs.map fun r => serializeRecord r.1 r.2)) ∧
    encodeMessage pool desc
        (DynamicMessage.mk [] (rs.map fun r => serializeRecord r.1 r.2)) =
      serializeRecords rs := by
  have hall : (rs.map fun r => serializeRecord r.1 r.2).all
      (isWfUnknown desc) = true := by
    rw [List.all_eq_true]
    intro raw hraw
    obtain ⟨r, hr, hrw⟩ := List.mem_map.mp hraw
    have hrec : decodeRecord (serializeRecord r.1 r.2) = .ok (r.1, r.2, []) := by
      have := decodeRecord_serialize r.1 r.2 [] (hwf r hr)
      simpa using this
    rw [← hrw, isWfUnknown, hrec]
    simp [hund r hr]
  constructor
  · rw [decode, serializeRecords_eq_flatten]
    have := decode_unknown_loop pool desc
      (rs.map fun r => serializeRecord r.1 r.2) [] [] hall
    simpa [emptyMessage] using this
  · rw [encodeMessage_mk, encodeFields_nil, serializeRecords_eq_flatten]
    rfl

theorem c6_unknown_preserved_witness :
    decode samplePool mainDesc (serializeRecords [(99, WireValue.varint 1)]) =
      .ok (DynamicMessage.mk [] [[152, 6, 1]]) ∧
    encodeMessage samplePool mainDesc (DynamicMessage.mk [] [[152, 6, 1]]) =
      serializeRecords [(99, WireValue.varint 1)] := by
  have h := c6_unknown_preserved samplePool mainDesc [(99, WireValue.varint 1)]
    (by intro r hr; simp at hr; subst hr; decide)
    (by intro r hr; simp at hr; subst hr; rfl)
  have hs : serializeRecord (99 : Nat) (WireValue.varint 1) = [152, 6, 1] := by
    have h792 : (99 : Nat) * 8 + 0 = 792 := by norm_num
    rw [serializeRecord, serializeWireValue, wireTypeOf, h792,
      encodeVarint, dif_neg (by norm_num), encodeVarint, dif_pos (by norm_num),
      encodeVarint, dif_pos (by norm_num)]
    norm_num
  simpa [hs] using h

theorem decodeMessage_scalar_singular_err (pool : DescriptorPool)
    (desc : MessageDescriptor) (acc : DynamicMessage) (n : Nat)
    (sk : ScalarKind) (wv : WireValue) (e : DecodeError) (T : Bytes)
    (fd : FieldDescriptor) (hrv : recordValid n wv = true)
    (hfd : findField desc n = some fd) (hmap : fd.is_map = false)
    (hkind : fd.kind = .scalar sk)
    (hcard : fd.cardinality = .singular ∨ fd.cardinality = .optional)
    (hdec : decodeScalarWire sk wv = .error e) :
    decodeMessage pool desc acc (serializeRecord n wv ++ T) = .error e := by
  have hrec := decodeRecord_serialize n wv T hrv
  have hlen := decodeRecord_length _ n wv T hrec
  rw [decodeMessage,
    if_neg (by
      intro hc
      exact serializeRecord_ne_nil n wv (List.append_eq_nil.mp hc).1)]
  simp only [hrec]
  rw [dif_pos hlen.1]
  simp only [hfd, hmap, Bool.false_eq_true, if_false, hkind]
  rcases hcard with hcard | hcard <;> simp only [hcard, hdec]

/-- C7: decoding is all-or-nothing and fails with a decode error on bad
input: the entry point returns either an error alone or a completed message
(never a partial one); a lone continuation byte is a truncated varint; eleven
continuation bytes exceed the ten-byte varint limit and are an invalid
varint; and a well-formed record whose wire type is incompatible with the
declared field's scalar kind fails with that incompatibility's error, no
matter what bytes follow. -/
theorem c7_decode_errors (pool : DescriptorPool) (desc : MessageDescriptor) :
    (∀ bs : Bytes, (∃ e, decode pool desc bs = .error e) ∨
      (∃ m, decode pool desc bs = .ok m)) ∧
    (∀ b : Nat, 128 ≤ b → b < 256 →
      decode pool desc [b] = .error .truncated) ∧
    decode pool desc [128, 128, 128, 128, 128, 128, 128, 128, 128, 128, 128] =
      .error .invalidVarint ∧
    (∀ (n : Nat) (sk : ScalarKind) (wv : WireValue) (fd : FieldDescriptor)
      (e : DecodeError) (T : Bytes), recordValid n wv = true →
      findField desc n = some fd → fd.is_map = false →
      fd.kind = .scalar sk →
      (fd.cardinality = .singular ∨ fd.cardinality = .optional) →
      decodeScalarWire sk wv = .error e →
      decode pool desc (serializeRecord n wv ++ T) = .error e) := by
  refine ⟨?_, ?_, ?_, ?_⟩
  · intro bs
    rcases h : decode pool desc bs with e | m
    · exact Or.inl ⟨e, rfl⟩
    · exact Or.inr ⟨m, rfl⟩
  · intro b hb1 hb2
    have hbm : b % 256 = b := Nat.mod_eq_of_lt hb2
    have hrec : decodeRecord [b] = .error .truncated := by
      have hv : decodeVarint 10 [b] = .error .truncated := by
        simp only [decodeVarint]
        rw [if_neg (by omega)]
      simp only [decodeRecord, hv]
    rw [decode, decodeMessage, if_neg (by simp)]
    simp only [hrec]
  · have hrec : decodeRecord
        [128, 128, 128, 128, 128, 128, 128, 128, 128, 128, 128] =
        .error .invalidVarint := rfl
    rw [decode, decodeMessage, if_neg (by simp)]
    simp only [hrec]
  · intro n sk wv fd e T hrv hfd hmap hkind hcard hdec
    rw [decode]
    exact decodeMessage_scalar_singular_err pool desc emptyMessage n sk wv e T
      fd hrv hfd hmap hkind hcard hdec

theorem c7_decode_errors_witness :
    decode samplePool mainDesc [200] = .error .truncated ∧
    decode samplePool mainDesc
        [128, 128, 128, 128, 128, 128, 128, 128, 128, 128, 128] =
      .error .invalidVarint ∧
    decode samplePool mainDesc (serializeRecord 5 (.varint 7)) =
      .error .wireTypeMismatch := by
  have h := c7_decode_errors samplePool mainDesc
  refine ⟨h.2.1 200 (by norm_num) (by norm_num), h.2.2.1, ?_⟩
  have h4 := h.2.2.2 5 .string (.varint 7)
    ⟨5, .scalar .string, .optional, false, some 0⟩ .wireTypeMismatch []
    (by decide) rfl rfl rfl (Or.inr rfl) rfl
  simpa using h4

/-- C1: for every dynamic message `m` built from any descriptor in a pool
(nested messages, map fields, repeated fields and captured unknown fields
included), decoding the wire bytes produced by encoding `m` yields `m`. -/
theorem c1_wire_roundtrip (pool : DescriptorPool) (desc : MessageDescriptor)
    (m : DynamicMessage) (hval : validMessage pool desc m = true) :
    decode pool desc (encodeMessage pool desc m) = .ok m := by
  rw [decode]
  exact decode_encode_height (msgHeight m) pool m desc le_rfl hval

theorem c1_wire_roundtrip_witness :
    decode samplePool mainDesc (encodeMessage samplePool mainDesc sampleMsg) =
      .ok sampleMsg := by
  refine c1_wire_roundtrip samplePool mainDesc sampleMsg ?_
  simp [sampleMsg, samplePool, mainDesc, subDesc, entryDesc, validMessage,
    validFields, validFieldValue, validFieldValue.eq_def, validSingle,
    validElems, validPairs,
    scalarValueValid, mapKeyValid, mapEntryInfo, isMapKeyKind, findField,
    isWfUnknown,
    decodeRecord, decodeVarint, encodeMessage, encodeFields,
    encodeFieldValue, encodeSingleField, encodeElems, encodeMapEntries,
    serializeRecord, serializeWireValue, encodeVarint, encodeScalarWire,
    encodeMapKeyWire, wireTypeOf, toU64, zigzag]

end ProstReflect